import Mathlib

/-!
Verification of the Morpheus note/task persistence engine.

Python strings are modelled as `List Char`; only the ASCII behaviour of
`str.lower`, `str.strip`, `str.title`, `\w` and `\s` is modelled, which covers
every input exercised below.  Python float arithmetic on similarity ratios is
modelled by exact rationals (`ℚ`).
-/

set_option maxHeartbeats 1000000
set_option maxRecDepth 16384

namespace Morpheus

/-- ASCII lowercasing, modelling `str.lower` on ASCII text. -/
def pyLower (c : Char) : Char :=
  if 'A' ≤ c ∧ c ≤ 'Z' then Char.ofNat (c.toNat + 32) else c

/-- `str.lower` over a whole string. -/
def lowerStr (s : List Char) : List Char := s.map pyLower

/-- Python `\s` (and `str.isspace`) on ASCII: space, tab, LF, CR, VT, FF. -/
def pyIsSpace (c : Char) : Bool :=
  c = ' ' || c = '\t' || c = '\n' || c = '\r' || c.toNat = 11 || c.toNat = 12

/-- Python `str.strip()`: remove leading and trailing whitespace. -/
def pyStrip (s : List Char) : List Char :=
  ((s.dropWhile pyIsSpace).reverse.dropWhile pyIsSpace).reverse

/-- `pat` occurs as a contiguous substring of `s`
    (Python `pat in s` / `re.search` on a literal pattern, for nonempty `pat`). -/
def containsSub (pat : List Char) : List Char → Bool
  | [] => false
  | c :: r => pat.isPrefixOf (c :: r) || containsSub pat r

/-- Python regex `\w` on ASCII: letters, digits, underscore. -/
def isWordChar (c : Char) : Bool := c.isAlphanum || c = '_'

/-- Worker for `wordRuns`: `acc` is the current run of word characters,
    reversed, or `none` when not inside a run. -/
def wordRunsGo : Option (List Char) → List Char → List (List Char)
  | none, [] => []
  | some acc, [] => [acc.reverse]
  | none, c :: r =>
    if isWordChar c then wordRunsGo (some [c]) r else wordRunsGo none r
  | some acc, c :: r =>
    if isWordChar c then wordRunsGo (some (c :: acc)) r
    else acc.reverse :: wordRunsGo none r

/-- Maximal runs of word characters: `re.findall(r"\b\w+\b", s)`. -/
def wordRuns (s : List Char) : List (List Char) := wordRunsGo none s

/-- The set of lowercase word tokens of a string:
    `set(re.findall(r"\b\w+\b", s.lower()))`. -/
def tokenSet (s : List Char) : Finset (List Char) := (wordRuns (lowerStr s)).toFinset

/-- `calculate_similarity` from `notes_utils.py` (lines 100-116): Jaccard
    similarity of the two token sets; the float division of the Python code is
    modelled by the exact rational ratio. -/
def calculate_similarity (text1 text2 : List Char) : ℚ :=
  let tokens1 := tokenSet text1
  let tokens2 := tokenSet text2
  let intersection := (tokens1 ∩ tokens2).card
  let union := (tokens1 ∪ tokens2).card
  if union = 0 then 0 else mkRat intersection union

/-- Suffix of `s` after the first occurrence of `pat`, if any. -/
def afterFirst (pat : List Char) : List Char → Option (List Char)
  | [] => none
  | c :: r =>
    if pat.isPrefixOf (c :: r) then some (List.drop pat.length (c :: r))
    else afterFirst pat r

/-- Python `re.search(a + ".*" + b, s)` without DOTALL: some line of `s`
    contains `a` followed, on the same line, by `b`. -/
def dotStarSearch (a b : List Char) (s : List Char) : Bool :=
  (s.splitOn '\n').any fun line =>
    match afterFirst a line with
    | some rest => containsSub b rest
    | none => false

/-- `is_task_related` from `notes_utils.py` (lines 72-97): case-insensitive
    search for each of the eleven task keyword patterns.  `complete[d]? task`
    matches exactly the substrings "complete task" and "completed task",
    `finish[ed]? task` the substrings "finish task", "finishe task",
    "finishd task" (a character class, not an optional suffix), and the `.*`
    patterns require both pieces on one line (no DOTALL). -/
def is_task_related (text : List Char) : Bool :=
  let t := lowerStr text
  containsSub ("completed task".data) t || containsSub ("complete task".data) t ||
  containsSub ("finish task".data) t || containsSub ("finishe task".data) t ||
  containsSub ("finishd task".data) t ||
  dotStarSearch ("task".data) ("done".data) t ||
  dotStarSearch ("added".data) ("task".data) t ||
  dotStarSearch ("created".data) ("task".data) t ||
  dotStarSearch ("marked".data) ("complete".data) t ||
  containsSub ("due date".data) t ||
  containsSub ("deadline".data) t ||
  containsSub ("todo".data) t ||
  containsSub ("to-do".data) t ||
  containsSub ("to do".data) t

/-- Characters allowed inside the bracketed category label: `[A-Za-z ]`. -/
def isLabelChar (c : Char) : Bool := c.isAlpha || c = ' '

/-- Worker for `pyTitle`; the flag records whether the previous character was
    a letter. -/
def pyTitleGo : Bool → List Char → List Char
  | _, [] => []
  | prev, c :: r =>
    if c.isAlpha then
      (if prev then c.toLower else c.toUpper) :: pyTitleGo true r
    else c :: pyTitleGo false r

/-- Python `str.title()` on ASCII text. -/
def pyTitle (s : List Char) : List Char := pyTitleGo false s

/-- The `Preference` keyword alternation `prefer|like|dislike|want|need`. -/
def preferenceWords : List (List Char) :=
  ["prefer".data, "like".data, "dislike".data, "want".data, "need".data]

/-- The `Schedule` keyword alternation `schedule|every|daily|weekly|monthly`. -/
def scheduleWords : List (List Char) :=
  ["schedule".data, "every".data, "daily".data, "weekly".data, "monthly".data]

/-- Case-insensitive alternation search (`re.search(w1|...|wn, text, re.IGNORECASE)`
    for lowercase literal words). -/
def containsAnyCI (words : List (List Char)) (text : List Char) : Bool :=
  words.any fun w => containsSub w (lowerStr text)

/-- The keyword-heuristic branch of `extract_category_from_text`. -/
def heuristicCategory (text : List Char) : List Char :=
  if containsAnyCI preferenceWords text then "Preference".data
  else if containsAnyCI scheduleWords text then "Schedule".data
  else "Observation".data

/-- `extract_category_from_text` from `notes_utils.py` (lines 48-69): a leading
    bracketed `[A-Za-z ]+` label (on the stripped text, title-cased, with the
    nonempty remainder stripped as content), else keyword heuristics on the raw
    text with the stripped text as content. -/
def extract_category_from_text (text : List Char) : List Char × List Char :=
  let stripped := pyStrip text
  match stripped with
  | '[' :: r =>
    let label := r.takeWhile isLabelChar
    let rest := r.dropWhile isLabelChar
    if label ≠ [] then
      match rest with
      | ']' :: content =>
        if content ≠ [] then (pyTitle (pyStrip label), pyStrip content)
        else (heuristicCategory text, stripped)
      | _ => (heuristicCategory text, stripped)
    else (heuristicCategory text, stripped)
  | _ => (heuristicCategory text, stripped)

/-- A note: category, content and timestamp, as stored by `notes_utils.py`. -/
structure Note where
  category : List Char
  content : List Char
  timestamp : List Char
  deriving DecidableEq, Repr

/-- The separator used when merging note contents. -/
def mergeSep : List Char := "\n\nAdditionally: ".data

/-- Return message when a note is rejected as task-related. -/
def taskRelatedMsg : List Char :=
  "Note appears to be task-related and should be stored in the task database instead.".data

/-- Return message when a note is rejected as a near-duplicate. -/
def duplicateMsg : List Char :=
  "Note is nearly identical to an existing note and was not added.".data

/-- Return message when a note is merged into an existing one. -/
def mergedMsg : List Char :=
  "Note was merged with a similar existing note.".data

/-- Return message when a note is appended. -/
def addedMsg (category : List Char) : List Char :=
  "Note added to category: ".data ++ category

/-- Outcome of the deduplication scan in `add_note`. -/
inductive ScanOut where
  | rejected
  | merged (notes : List Note)
  | noMatch
  deriving DecidableEq

/-- The deduplication loop of `add_note` (`notes_utils.py` lines 226-239): scan
    the existing notes in stored order; similarity above 0.8 rejects, otherwise
    similarity above 0.5 with an equal category merges in place. -/
def add_note_scan (cand : Note) : List Note → ScanOut
  | [] => .noMatch
  | n :: rest =>
    let similarity := calculate_similarity n.content cand.content
    if similarity > mkRat 4 5 then .rejected
    else if similarity > mkRat 1 2 ∧ n.category = cand.category then
      .merged (Note.mk n.category (n.content ++ mergeSep ++ cand.content) n.timestamp :: rest)
    else
      match add_note_scan cand rest with
      | .rejected => .rejected
      | .merged l => .merged (n :: l)
      | .noMatch => .noMatch

/-- `add_note` from `notes_utils.py` (lines 204-243), with the notebook file
    abstracted to its stored note list (the file round-trip is the markdown
    codec, modelled separately).  `ts` is the timestamp `datetime.now()` gives
    the candidate note.  Returns the `(success, message)` pair of the source
    together with the resulting stored note list. -/
def add_note (notes : List Note) (text : List Char) (ts : List Char) :
    Bool × List Char × List Note :=
  if is_task_related text then (false, taskRelatedMsg, notes)
  else
    let cc := extract_category_from_text text
    let newNote : Note := ⟨cc.1, cc.2, ts⟩
    match add_note_scan newNote notes with
    | .rejected => (false, duplicateMsg, notes)
    | .merged l => (true, mergedMsg, l)
    | .noMatch => (true, addedMsg cc.1, notes ++ [newNote])

/-- Decision of the similarity merge engine, as the spec states it
    (`proposeWrite(existingNotes, candidate) -> Reject | Merge(targetIndex) | Insert`). -/
inductive WriteDecision where
  | reject
  | merge (i : ℕ)
  | insert
  deriving DecidableEq

/-- A note triggers the first-match scan against the candidate: similarity
    above 0.8, or similarity above 0.5 with the same category. -/
def triggersB (cand n : Note) : Bool :=
  decide (calculate_similarity n.content cand.content > mkRat 4 5) ||
  (decide (calculate_similarity n.content cand.content > mkRat 1 2) &&
    decide (n.category = cand.category))

/-- Decision policy written from the words of spec section 4.4: evaluated
    against every existing note in original order, first match wins; similarity
    above 0.8 rejects, else similarity above 0.5 with the same category merges
    into that note; otherwise insert. -/
def proposeWrite (existing : List Note) (cand : Note) : WriteDecision :=
  match existing.findIdx? (triggersB cand) with
  | some i =>
    match existing[i]? with
    | some n =>
      if calculate_similarity n.content cand.content > mkRat 4 5 then .reject else .merge i
    | none => .insert
  | none => .insert

/-! ### Correspondence of `add_note` with the spec decision policy -/

/-- The scan loop of `add_note` computes exactly the first-match decision of the
    spec policy: the first triggering note decides (reject above 0.8, else merge
    in place), and no triggering note means no match. -/
theorem add_note_scan_eq_findIdx (cand : Note) (notes : List Note) :
    add_note_scan cand notes =
      match notes.findIdx? (triggersB cand) with
      | none => .noMatch
      | some i =>
        match notes[i]? with
        | some n =>
          if calculate_similarity n.content cand.content > mkRat 4 5 then .rejected
          else .merged
            (notes.set i ⟨n.category, n.content ++ mergeSep ++ cand.content, n.timestamp⟩)
        | none => .noMatch
      := by
  induction notes with
  | nil => rfl
  | cons m rest ih =>
    by_cases ht : triggersB cand m = true
    · have ht' := ht
      simp only [triggersB, Bool.or_eq_true, Bool.and_eq_true, decide_eq_true_eq] at ht'
      simp only [List.findIdx?_cons, ht, if_true, List.getElem?_cons_zero, List.set]
      by_cases h8 : calculate_similarity m.content cand.content > mkRat 4 5
      · simp [add_note_scan, h8]
      · have hmerge : calculate_similarity m.content cand.content > mkRat 1 2 ∧
            m.category = cand.category := ht'.resolve_left h8
        simp [add_note_scan, h8, hmerge]
    · have ht0 : triggersB cand m = false := by simpa using ht
      have ht' := ht0
      simp only [triggersB, Bool.or_eq_false_iff, Bool.and_eq_false_iff,
        decide_eq_false_iff_not] at ht'
      have h8 : ¬ calculate_similarity m.content cand.content > mkRat 4 5 := ht'.1
      have hnm : ¬ (calculate_similarity m.content cand.content > mkRat 1 2 ∧
          m.category = cand.category) := by
        rcases ht'.2 with h | h
        · exact fun hc => h hc.1
        · exact fun hc => h hc.2
      have hscan : add_note_scan cand (m :: rest) =
          match add_note_scan cand rest with
          | .rejected => .rejected
          | .merged l => .merged (m :: l)
          | .noMatch => .noMatch := by
        simp [add_note_scan, h8, hnm]
      rw [hscan, ih]
      cases hfi : rest.findIdx? (triggersB cand) with
      | none => simp [List.findIdx?_cons, ht0, hfi]
      | some j =>
        have hj : j < rest.length := (List.findIdx?_eq_some_iff_getElem.mp hfi).1
        have hget : rest[j]? = some rest[j] := List.getElem?_eq_getElem hj
        simp only [List.findIdx?_cons, ht0, Bool.false_eq_true, if_false,
          List.findIdx?_start_succ, hfi, Option.map_some', Nat.zero_add,
          hget, List.getElem?_cons_succ, List.set_cons_succ]
        by_cases h9 : calculate_similarity (rest[j]).content cand.content > mkRat 4 5
        · simp [h9]
        · simp [h9]

/-- C1: for every notebook state (stored note list) and every non-task-related
    candidate text, `add_note` realises the first-match decision policy of spec
    section 4.4 (`proposeWrite`): similarity above 0.8 with some note rejects
    the write and leaves the stored list unchanged; else similarity above 0.5
    with an equal category merges the candidate into that first note; if no
    existing note triggers either branch the candidate is appended as a new
    note. -/
theorem claim_C1_add_note_follows_policy (notes : List Note) (text ts : List Char)
    (cand : Note) (htask : is_task_related text = false)
    (hcand : cand = ⟨(extract_category_from_text text).1,
      (extract_category_from_text text).2, ts⟩) :
    (proposeWrite notes cand = .reject →
      add_note notes text ts = (false, duplicateMsg, notes)) ∧
    (∀ i n, proposeWrite notes cand = .merge i → notes[i]? = some n →
      add_note notes text ts = (true, mergedMsg,
        notes.set i ⟨n.category, n.content ++ mergeSep ++ cand.content, n.timestamp⟩)) ∧
    (proposeWrite notes cand = .insert →
      add_note notes text ts = (true, addedMsg cand.category, notes ++ [cand])) := by
  have kadd : add_note notes text ts =
      (match add_note_scan cand notes with
       | .rejected => (false, duplicateMsg, notes)
       | .merged l => (true, mergedMsg, l)
       | .noMatch => (true, addedMsg cand.category, notes ++ [cand])) := by
    subst hcand
    simp only [add_note, htask, Bool.false_eq_true, if_false]
  refine ⟨?_, ?_, ?_⟩
  · intro h
    rw [kadd, add_note_scan_eq_findIdx]
    cases hfi : notes.findIdx? (triggersB cand) with
    | none => simp only [proposeWrite, hfi] at h; cases h
    | some i =>
      cases hgi : notes[i]? with
      | none => simp only [proposeWrite, hfi, hgi] at h; cases h
      | some n =>
        simp only [proposeWrite, hfi, hgi] at h
        by_cases h8 : calculate_similarity n.content cand.content > mkRat 4 5
        · simp [hfi, hgi, h8]
        · rw [if_neg h8] at h; cases h
  · intro i n h hg
    rw [kadd, add_note_scan_eq_findIdx]
    cases hfi : notes.findIdx? (triggersB cand) with
    | none => simp only [proposeWrite, hfi] at h; cases h
    | some j =>
      cases hgj : notes[j]? with
      | none => simp only [proposeWrite, hfi, hgj] at h; cases h
      | some m =>
        simp only [proposeWrite, hfi, hgj] at h
        by_cases h8 : calculate_similarity m.content cand.content > mkRat 4 5
        · rw [if_pos h8] at h; cases h
        · rw [if_neg h8] at h
          cases h
          rw [hg] at hgj
          cases hgj
          simp [hfi, hg, h8]
  · intro h
    rw [kadd, add_note_scan_eq_findIdx]
    cases hfi : notes.findIdx? (triggersB cand) with
    | none => simp [hfi]
    | some i =>
      cases hgi : notes[i]? with
      | none => simp [hfi, hgi]
      | some n =>
        simp only [proposeWrite, hfi, hgi] at h
        by_cases h8 : calculate_similarity n.content cand.content > mkRat 4 5
        · rw [if_pos h8] at h; cases h
        · rw [if_neg h8] at h; cases h

/-- Witness for C1 at a concrete input: a candidate identical to the stored
    note (similarity 1 above 0.8) is rejected and the store is unchanged. -/
theorem claim_C1_witness :
    add_note [⟨"Observation".data, "a b c".data, "t1".data⟩] ("a b c".data) ("t2".data)
      = (false, duplicateMsg, [⟨"Observation".data, "a b c".data, "t1".data⟩]) :=
  (claim_C1_add_note_follows_policy
    [⟨"Observation".data, "a b c".data, "t1".data⟩] ("a b c".data) ("t2".data)
    ⟨"Observation".data, "a b c".data, "t2".data⟩ (by decide) (by decide)).1 (by decide)

/-- C2: when the first triggering note has similarity in (0.5, 0.8] to the
    candidate and an equal category, `add_note` merges: the stored content of
    that note becomes `old ++ "\n\nAdditionally: " ++ new` (so it contains both
    original contents), its timestamp is preserved, and the note count is
    unchanged. -/
theorem claim_C2_merge_preserves (notes : List Note) (i : ℕ) (n : Note)
    (text ts : List Char) (cand merged : Note)
    (hcand : cand = ⟨(extract_category_from_text text).1,
      (extract_category_from_text text).2, ts⟩)
    (hmerged : merged = ⟨n.category, n.content ++ mergeSep ++ cand.content, n.timestamp⟩)
    (htask : is_task_related text = false)
    (hn : notes[i]? = some n)
    (h1 : calculate_similarity n.content cand.content > mkRat 1 2)
    (h2 : calculate_similarity n.content cand.content ≤ mkRat 4 5)
    (hcat : n.category = cand.category)
    (hprev : ∀ j m, j < i → notes[j]? = some m →
      calculate_similarity m.content cand.content ≤ mkRat 4 5 ∧
      (calculate_similarity m.content cand.content ≤ mkRat 1 2 ∨
        m.category ≠ cand.category)) :
    add_note notes text ts = (true, mergedMsg, notes.set i merged) ∧
    (notes.set i merged).length = notes.length ∧
    (notes.set i merged)[i]? = some merged ∧
    merged.timestamp = n.timestamp ∧
    n.content <:+: merged.content ∧
    cand.content <:+: merged.content := by
  have hlen : i < notes.length := (List.getElem?_eq_some_iff.mp hn).1
  have hgi : notes[i] = n := (List.getElem?_eq_some_iff.mp hn).2
  have hfi : notes.findIdx? (triggersB cand) = some i := by
    refine List.findIdx?_eq_some_iff_getElem.mpr ⟨hlen, ?_, ?_⟩
    · rw [hgi]
      simp only [triggersB, Bool.or_eq_true, Bool.and_eq_true, decide_eq_true_eq]
      exact Or.inr ⟨h1, hcat⟩
    · intro j hj
      have hj' : j < notes.length := Nat.lt_trans hj hlen
      have := hprev j notes[j] hj (List.getElem?_eq_getElem hj')
      simp only [triggersB, Bool.or_eq_true, Bool.and_eq_true, decide_eq_true_eq]
      push_neg
      refine ⟨this.1, ?_⟩
      intro hgt
      rcases this.2 with hle | hne
      · exact absurd hgt (not_lt_of_le hle)
      · exact hne
  have h8 : ¬ calculate_similarity n.content cand.content > mkRat 4 5 :=
    not_lt_of_le h2
  subst hmerged
  have kadd : add_note notes text ts =
      (match add_note_scan cand notes with
       | .rejected => (false, duplicateMsg, notes)
       | .merged l => (true, mergedMsg, l)
       | .noMatch => (true, addedMsg cand.category, notes ++ [cand])) := by
    subst hcand
    simp only [add_note, htask, Bool.false_eq_true, if_false]
  have hadd : add_note notes text ts = (true, mergedMsg,
      notes.set i ⟨n.category, n.content ++ mergeSep ++ cand.content, n.timestamp⟩) := by
    rw [kadd, add_note_scan_eq_findIdx]
    simp [hfi, hn, h8]
  refine ⟨hadd, by simp, List.getElem?_set_self (by simpa using hlen), rfl, ?_, ?_⟩
  · simpa only [List.append_assoc] using
      (List.prefix_append n.content (mergeSep ++ cand.content)).isInfix
  · exact (List.suffix_append (n.content ++ mergeSep) cand.content).isInfix

/-- Witness for C2 at a concrete input: similarity 3/5, equal categories, so the
    write merges, keeps the timestamp and creates no new note. -/
theorem claim_C2_witness :
    add_note [⟨"Observation".data, "a b c d".data, "t1".data⟩] ("a b c e".data) ("t2".data)
      = (true, mergedMsg,
        [⟨"Observation".data, "a b c d".data ++ mergeSep ++ "a b c e".data, "t1".data⟩]) :=
  (claim_C2_merge_preserves [⟨"Observation".data, "a b c d".data, "t1".data⟩] 0
    ⟨"Observation".data, "a b c d".data, "t1".data⟩ ("a b c e".data) ("t2".data)
    ⟨"Observation".data, "a b c e".data, "t2".data⟩
    ⟨"Observation".data, "a b c d".data ++ mergeSep ++ "a b c e".data, "t1".data⟩
    (by decide) (by decide) (by decide) (by decide) (by decide) (by decide) (by decide)
    (fun j m hj _ => absurd hj (Nat.not_lt_zero j))).1

/-- C4: contrary to the claim, `is_task_related` returns `False` on the text
    "Task completed: finish report" (no keyword pattern matches the
    "task ... completed" word order, there is no "done", "todo" or deadline
    phrasing), so `add_note` accepts the text and appends it as an
    Observation note instead of rejecting it towards the task store. -/
theorem claim_C4_task_completed_accepted :
    is_task_related ("Task completed: finish report".data) = false ∧
    add_note [] ("Task completed: finish report".data) ("2025-01-01T00:00:00".data) =
      (true, addedMsg ("Observation".data),
        [⟨"Observation".data, "Task completed: finish report".data,
          "2025-01-01T00:00:00".data⟩]) := by
  constructor
  · decide
  · decide

/-- C3: `calculate_similarity` returns the Jaccard similarity of the two sets
    of lowercase word tokens as an exact ratio of intersection size to union
    size, and returns 0 when the union of the two token sets is empty. -/
theorem claim_C3_similarity_is_jaccard (text1 text2 : List Char) :
    calculate_similarity text1 text2 =
      ((tokenSet text1 ∩ tokenSet text2).card : ℚ) /
        ((tokenSet text1 ∪ tokenSet text2).card : ℚ) ∧
    (tokenSet text1 ∪ tokenSet text2 = ∅ → calculate_similarity text1 text2 = 0) := by
  constructor
  · simp only [calculate_similarity]
    by_cases hu : (tokenSet text1 ∪ tokenSet text2).card = 0
    · have hint : (tokenSet text1 ∩ tokenSet text2).card = 0 := by
        have hsub : tokenSet text1 ∩ tokenSet text2 ⊆ tokenSet text1 ∪ tokenSet text2 :=
          (Finset.inter_subset_left).trans Finset.subset_union_left
        have := Finset.card_le_card hsub
        omega
      rw [if_pos hu, hint, hu]
      norm_num
    · rw [if_neg hu, Rat.mkRat_eq_divInt, Rat.divInt_eq_div]
      push_cast
      ring
  · intro h
    have hu : (tokenSet text1 ∪ tokenSet text2).card = 0 := by rw [h]; simp
    simp [calculate_similarity, hu]

/-! ### Conversation history cache (`agent.py` lines 55-62, 484-509) -/

/-- The in-memory history cache of `MorpheusBot`: the stored message list and
    the unix timestamp recorded by the last `set_history` (`None` initially and
    after an expiry).  Message records are opaque (`α`); times are exact
    rationals standing for `time.time()` values. -/
structure HistState (α : Type) where
  history : List α
  history_timestamp : Option ℚ
  deriving DecidableEq

/-- `set_history` (`agent.py` lines 473-482): store the given history and stamp
    the current time `t`. -/
def set_history {α : Type} (_st : HistState α) (history : List α) (t : ℚ) :
    HistState α :=
  ⟨history, some t⟩

/-- The idle window of `get_history`: `1 * 3600` seconds. -/
def one_hour : ℚ := 3600

/-- `get_history` (`agent.py` lines 484-509) called at time `t`: if a recorded
    timestamp is truthy (not `None`, nonzero) and more than one hour has
    elapsed, clear both the history and the timestamp and return the empty
    list; otherwise return the stored history with the state unchanged. -/
def get_history {α : Type} (st : HistState α) (t : ℚ) : List α × HistState α :=
  match st.history_timestamp with
  | some ts =>
    if ts ≠ 0 ∧ t - ts > one_hour then ([], ⟨[], none⟩) else (st.history, st)
  | none => (st.history, st)

/-- C5: after `set_history M` at a (positive, i.e. realistic unix) time `t0`, a
    `get_history` at any time at most one hour later returns `M` with the cache
    unchanged, and a `get_history` more than one hour later atomically clears
    both the stored messages and the timestamp and returns the empty list. -/
theorem claim_C5_history_roundtrip_and_expiry {α : Type} (st : HistState α)
    (M : List α) (t0 t : ℚ) (hpos : 0 < t0) :
    (t - t0 ≤ one_hour →
      get_history (set_history st M t0) t = (M, set_history st M t0)) ∧
    (t - t0 > one_hour →
      get_history (set_history st M t0) t = ([], ⟨[], none⟩)) := by
  constructor
  · intro h
    have : ¬ (t0 ≠ 0 ∧ t - t0 > one_hour) := fun hc => absurd hc.2 (not_lt_of_le h)
    simp [get_history, set_history, this]
  · intro h
    have : t0 ≠ 0 ∧ t - t0 > one_hour := ⟨ne_of_gt hpos, h⟩
    simp [get_history, set_history, this]

/-- Witness for C5: a concrete round-trip within the hour and a concrete
    expiry after it. -/
theorem claim_C5_witness :
    get_history (set_history (⟨[], none⟩ : HistState ℕ) [7] 100) 200 =
      ([7], ⟨[7], some 100⟩) ∧
    get_history (set_history (⟨[], none⟩ : HistState ℕ) [7] 100) 4000 =
      ([], ⟨[], none⟩) :=
  ⟨(claim_C5_history_roundtrip_and_expiry ⟨[], none⟩ [7] 100 200 (by norm_num)).1
      (by norm_num [one_hour]),
    (claim_C5_history_roundtrip_and_expiry ⟨[], none⟩ [7] 100 4000 (by norm_num)).2
      (by norm_num [one_hour])⟩

/-- C10: with no recorded timestamp, `get_history` returns the stored history
    unchanged regardless of the elapsed time, so two consecutive calls at any
    times return equal results and leave the cache state unchanged. -/
theorem claim_C10_get_history_stable_without_timestamp {α : Type}
    (st : HistState α) (t t' : ℚ) (h : st.history_timestamp = none) :
    get_history st t = (st.history, st) ∧
    (get_history (get_history st t).2 t').1 = (get_history st t).1 ∧
    (get_history (get_history st t).2 t').2 = st := by
  have h1 : get_history st t = (st.history, st) := by
    rw [get_history, h]
  refine ⟨h1, ?_, ?_⟩ <;> rw [h1] <;> simp [get_history, h]

/-- Witness for C10: a concrete cache with messages but no timestamp is
    returned unchanged at widely separated times. -/
theorem claim_C10_witness :
    get_history (⟨[3], none⟩ : HistState ℕ) 5 = ([3], ⟨[3], none⟩) ∧
    (get_history (get_history (⟨[3], none⟩ : HistState ℕ) 5).2 99999).2 =
      (⟨[3], none⟩ : HistState ℕ) :=
  ⟨(claim_C10_get_history_stable_without_timestamp ⟨[3], none⟩ 5 99999 rfl).1,
    (claim_C10_get_history_stable_without_timestamp ⟨[3], none⟩ 5 99999 rfl).2.2⟩

/-! ### Schema manager (`agent.py` `init_db`, lines 398-453) -/

/-- A cell value in the SQLite model. -/
inductive SqlValue where
  | intV (n : ℤ)
  | textV (s : List Char)
  | nullV
  deriving DecidableEq, Repr

/-- A table: ordered column names and rows of cells aligned with the columns. -/
structure Table where
  cols : List (List Char)
  rows : List (List SqlValue)
  deriving DecidableEq, Repr

/-- The database file: the `tasks` and `notes` tables, absent until created. -/
structure Db where
  tasks : Option Table
  notes : Option Table
  deriving DecidableEq, Repr

/-- Migration statements issued by `init_db` after the initial creation:
    `ALTER TABLE tasks ADD COLUMN name DEFAULT d` and `COMMIT`. -/
inductive MigAction where
  | addColumn (name : List Char) (default : SqlValue)
  | commit
  deriving DecidableEq, Repr

/-- Column set of a freshly created `tasks` table. -/
def taskCols : List (List Char) :=
  ["id".data, "description".data, "time_added".data, "time_complete".data,
    "due".data, "tags".data, "recurrence".data, "points".data]

/-- Column set of a freshly created `notes` table. -/
def notesCols : List (List Char) :=
  ["id".data, "content".data, "category".data, "timestamp".data]

/-- `CREATE TABLE IF NOT EXISTS`: keep an existing table, else create it with
    the given columns and no rows. -/
def createIfNotExists (t : Option Table) (cols : List (List Char)) : Table :=
  t.getD ⟨cols, []⟩

/-- `ALTER TABLE ADD COLUMN name DEFAULT d`: the column is appended and every
    existing row takes the default value. -/
def addColumnTbl (t : Table) (name : List Char) (d : SqlValue) : Table :=
  ⟨t.cols ++ [name], t.rows.map (· ++ [d])⟩

/-- The four column checks of `init_db`, in source order, with their documented
    defaults (`TEXT DEFAULT ''` three times, `INT DEFAULT 1` for points). -/
def migrations : List (List Char × SqlValue) :=
  [("due".data, .textV []), ("tags".data, .textV []),
    ("recurrence".data, .textV []), ("points".data, .intV 1)]

/-- The migration loop of `init_db`: for each listed column name missing from
    the snapshot read by `PRAGMA table_info(tasks)` before the loop, add the
    column with its default and commit. -/
def applyMigrations (snapshot : List (List Char)) :
    List (List Char × SqlValue) → Table → Table × List MigAction
  | [], t => (t, [])
  | (n, d) :: ms, t =>
    if n ∈ snapshot then applyMigrations snapshot ms t
    else
      let r := applyMigrations snapshot ms (addColumnTbl t n d)
      (r.1, .addColumn n d :: .commit :: r.2)

/-- `init_db` from `agent.py` (lines 398-453): create the `tasks` and `notes`
    tables if absent (with the full current column sets), commit, read the
    `tasks` column snapshot, then add each of due, tags, recurrence, points
    missing from the snapshot with its default, committing after each addition.
    Returns the resulting database together with the trace of migration
    statements issued after the snapshot. -/
def init_db (db : Db) : Db × List MigAction :=
  let t0 := createIfNotExists db.tasks taskCols
  let n0 := createIfNotExists db.notes notesCols
  let r := applyMigrations t0.cols migrations t0
  (⟨some r.1, some n0⟩, r.2)

/-- The names of the migrations missing from a snapshot. -/
def missingMigrations (snapshot : List (List Char)) :
    List (List Char × SqlValue) :=
  migrations.filter (fun p => decide (p.1 ∉ snapshot))

/-- Closed form of the migration loop: the missing columns are appended in
    order, every row is extended with the corresponding defaults, and the trace
    is one `ALTER TABLE ADD COLUMN` followed by one `COMMIT` per missing
    column. -/
theorem applyMigrations_eq (snapshot : List (List Char))
    (ms : List (List Char × SqlValue)) (t : Table) :
    applyMigrations snapshot ms t =
      (⟨t.cols ++ (ms.filter (fun p => decide (p.1 ∉ snapshot))).map Prod.fst,
        t.rows.map
          (· ++ (ms.filter (fun p => decide (p.1 ∉ snapshot))).map Prod.snd)⟩,
       (ms.filter (fun p => decide (p.1 ∉ snapshot))).flatMap
         (fun p => [.addColumn p.1 p.2, .commit])) := by
  induction ms generalizing t with
  | nil => simp [applyMigrations]
  | cons p ms ih =>
    obtain ⟨n, d⟩ := p
    by_cases hn : n ∈ snapshot
    · simp [applyMigrations, hn, ih]
    · simp only [applyMigrations, hn, if_false, ih, addColumnTbl, List.filter_cons,
        decide_not, decide_eq_true_eq, List.map_cons, List.flatMap_cons,
        List.map_map]
      simp [hn, List.append_assoc, Function.comp_def]

/-- When every listed column is already in the snapshot the loop is a no-op. -/
theorem applyMigrations_all_present (snapshot : List (List Char))
    (ms : List (List Char × SqlValue)) (t : Table)
    (h : ∀ p ∈ ms, p.1 ∈ snapshot) :
    applyMigrations snapshot ms t = (t, []) := by
  induction ms with
  | nil => rfl
  | cons p ms ih =>
    obtain ⟨n, d⟩ := p
    have hn : n ∈ snapshot := h ⟨n, d⟩ (List.mem_cons_self _ _)
    simp only [applyMigrations, hn, if_true]
    exact ih fun q hq => h q (List.mem_cons_of_mem _ hq)

/-- C6: `init_db` is idempotent on the database state (same tasks and notes
    column sets, no row data lost), and for a pre-existing `tasks` table it
    adds exactly the missing columns of due, tags, recurrence, points, each
    with its documented default and each followed by a commit, extending every
    existing row with the defaults. -/
theorem claim_C6_init_db_idempotent_and_migrates (db : Db) :
    (init_db (init_db db).1).1 = (init_db db).1 ∧
    (∀ t, db.tasks = some t →
      (init_db db).1.tasks = some
        ⟨t.cols ++ (missingMigrations t.cols).map Prod.fst,
          t.rows.map (· ++ (missingMigrations t.cols).map Prod.snd)⟩ ∧
      (init_db db).2 =
        (missingMigrations t.cols).flatMap
          (fun p => [.addColumn p.1 p.2, .commit])) := by
  constructor
  · have hall : ∀ p ∈ migrations,
        p.1 ∈ ((applyMigrations (createIfNotExists db.tasks taskCols).cols
          migrations (createIfNotExists db.tasks taskCols)).1).cols := by
      intro p hp
      rw [applyMigrations_eq]
      by_cases hm : p.1 ∈ (createIfNotExists db.tasks taskCols).cols
      · exact List.mem_append_left _ hm
      · refine List.mem_append_right _ ?_
        exact List.mem_map_of_mem Prod.fst (List.mem_filter.mpr ⟨hp, by simpa using hm⟩)
    simp only [init_db]
    rw [show (createIfNotExists
        (some (applyMigrations (createIfNotExists db.tasks taskCols).cols
          migrations (createIfNotExists db.tasks taskCols)).1) taskCols) =
        (applyMigrations (createIfNotExists db.tasks taskCols).cols
          migrations (createIfNotExists db.tasks taskCols)).1 from rfl]
    rw [applyMigrations_all_present _ _ _ hall]
    rfl
  · intro t ht
    constructor
    · simp only [init_db, ht, createIfNotExists, Option.getD_some]
      rw [applyMigrations_eq]
      rfl
    · simp only [init_db, ht, createIfNotExists, Option.getD_some]
      rw [applyMigrations_eq]
      rfl

/-- Witness for C6: a legacy `tasks` table missing all four newer columns is
    migrated to the full column set with defaults appended to the one stored
    row, one add-column and commit per column, and a second run changes
    nothing. -/
theorem claim_C6_witness :
    (init_db (init_db
        ⟨some ⟨["id".data, "description".data, "time_added".data,
          "time_complete".data],
          [[.intV 1, .textV ("Pay rent".data), .textV ("2025".data), .nullV]]⟩,
        none⟩).1).1 =
      (init_db
        ⟨some ⟨["id".data, "description".data, "time_added".data,
          "time_complete".data],
          [[.intV 1, .textV ("Pay rent".data), .textV ("2025".data), .nullV]]⟩,
        none⟩).1 ∧
    (init_db
        ⟨some ⟨["id".data, "description".data, "time_added".data,
          "time_complete".data],
          [[.intV 1, .textV ("Pay rent".data), .textV ("2025".data), .nullV]]⟩,
        none⟩).1.tasks = some
      ⟨["id".data, "description".data, "time_added".data, "time_complete".data,
          "due".data, "tags".data, "recurrence".data, "points".data],
        [[.intV 1, .textV ("Pay rent".data), .textV ("2025".data), .nullV,
          .textV [], .textV [], .textV [], .intV 1]]⟩ := by
  refine ⟨(claim_C6_init_db_idempotent_and_migrates _).1, ?_⟩
  have h := ((claim_C6_init_db_idempotent_and_migrates
    ⟨some ⟨["id".data, "description".data, "time_added".data,
      "time_complete".data],
      [[.intV 1, .textV ("Pay rent".data), .textV ("2025".data), .nullV]]⟩,
    none⟩).2 _ rfl).1
  rw [h]
  decide

/-! ### Task store read helper (`agent.py` lines 148-189, 455-465) -/

/-- Python `sep.join(parts)`. -/
def joinSep (sep : List Char) : List (List Char) → List Char
  | [] => []
  | [x] => x
  | x :: xs => x ++ sep ++ joinSep sep xs

/-- A character of a join comes from the separator or from one part. -/
theorem mem_joinSep {c : Char} {sep : List Char} :
    ∀ {ls : List (List Char)}, c ∈ joinSep sep ls →
      c ∈ sep ∨ ∃ l ∈ ls, c ∈ l
  | [], h => by cases h
  | [x], h => Or.inr ⟨x, List.mem_singleton_self x, h⟩
  | x :: y :: xs, h => by
    rw [show joinSep sep (x :: y :: xs) = x ++ sep ++ joinSep sep (y :: xs) from rfl,
      List.mem_append, List.mem_append] at h
    rcases h with (h | h) | h
    · exact Or.inr ⟨x, List.mem_cons_self _ _, h⟩
    · exact Or.inl h
    · rcases mem_joinSep h with h | ⟨l, hl, hc⟩
      · exact Or.inl h
      · exact Or.inr ⟨l, List.mem_cons_of_mem _ hl, hc⟩

/-- Decimal digit characters. -/
def digitChar (n : ℕ) : Char := ("0123456789".data).getD n (Char.ofNat 48)

/-- Lowercase hexadecimal digit characters. -/
def hexDigitChar (n : ℕ) : Char := ("0123456789abcdef".data).getD n (Char.ofNat 48)

/-- Two lowercase hex digits, as in `\xNN` escapes of `repr`. -/
def hex2 (n : ℕ) : List Char := [hexDigitChar (n / 16 % 16), hexDigitChar (n % 16)]

/-- Worker for `natRepr`; `fuel` bounds the number of digits. -/
def natDigitsGo : ℕ → ℕ → List Char
  | 0, _ => []
  | fuel + 1, n =>
    if n < 10 then [digitChar n]
    else natDigitsGo fuel (n / 10) ++ [digitChar (n % 10)]

/-- Python `str` of a nonnegative integer. -/
def natRepr (n : ℕ) : List Char := natDigitsGo (n + 1) n

/-- Python `str` of an integer. -/
def intRepr (n : ℤ) : List Char :=
  if n < 0 then Char.ofNat 45 :: natRepr n.natAbs else natRepr n.toNat

/-- The single-quote character. -/
def squote : Char := Char.ofNat 39

/-- The double-quote character. -/
def dquote : Char := Char.ofNat 34

/-- One character of Python `repr` of a string with delimiter `delim`:
    backslash, the delimiter, newline, carriage return, tab and other
    non-printable ASCII are escaped, everything else is verbatim. -/
def pyReprEscape (delim : Char) (c : Char) : List Char :=
  if c = Char.ofNat 92 then [Char.ofNat 92, Char.ofNat 92]
  else if c = delim then [Char.ofNat 92, delim]
  else if c = Char.ofNat 10 then [Char.ofNat 92, Char.ofNat 110]
  else if c = Char.ofNat 13 then [Char.ofNat 92, Char.ofNat 114]
  else if c = Char.ofNat 9 then [Char.ofNat 92, Char.ofNat 116]
  else if c.toNat < 32 ∨ c.toNat = 127 then
    Char.ofNat 92 :: Char.ofNat 120 :: hex2 c.toNat
  else [c]

/-- Python `repr` of a string: single quotes by default, double quotes when
    the text contains a single quote but no double quote. -/
def pyReprStr (s : List Char) : List Char :=
  let delim := if squote ∈ s ∧ dquote ∉ s then dquote else squote
  delim :: s.flatMap (pyReprEscape delim) ++ [delim]

/-- Python `repr` of one cell value. -/
def pyReprVal : SqlValue → List Char
  | .intV n => intRepr n
  | .textV s => pyReprStr s
  | .nullV => "None".data

/-- Python `str` of a row tuple: `"(x,)"` for one cell, else the
    comma-separated form. -/
def pyStrRow (row : List SqlValue) : List Char :=
  match row with
  | [v] => Char.ofNat 40 :: pyReprVal v ++ [Char.ofNat 44, Char.ofNat 41]
  | _ => Char.ofNat 40 :: joinSep (", ".data) (row.map pyReprVal) ++ [Char.ofNat 41]

/-- The outcome the underlying store (`query_db` / sqlite3) produces for a
    query: a fetched row list, or a `sqlite3.Error` with its message. -/
inductive QueryOutcome where
  | ok (rows : List (List SqlValue))
  | err (e : List Char)
  deriving DecidableEq

/-- `query_task_database` (`agent.py` lines 148-189): the `try`/`except` around
    `query_db` returns `"\n".join(str(row) for row in rows)` on success and the
    string `"Error executing query: " + e` on a database error — the exception
    never propagates past the tool. -/
def query_task_database (outcome : QueryOutcome) : List Char :=
  match outcome with
  | .ok rows => joinSep [Char.ofNat 10] (rows.map pyStrRow)
  | .err e => "Error executing query: ".data ++ e

/-- No digit character is a newline. -/
theorem newline_not_mem_natDigitsGo (fuel n : ℕ) :
    Char.ofNat 10 ∉ natDigitsGo fuel n := by
  induction fuel generalizing n with
  | zero => simp [natDigitsGo]
  | succ fuel ih =>
    intro hm
    rw [natDigitsGo] at hm
    by_cases h : n < 10
    · rw [if_pos h, List.mem_singleton] at hm
      revert hm
      interval_cases n <;> decide
    · rw [if_neg h, List.mem_append, List.mem_singleton] at hm
      rcases hm with hm | hm
      · exact ih _ hm
      · have h10 : n % 10 < 10 := Nat.mod_lt _ (by norm_num)
        revert hm
        interval_cases h' : n % 10 <;> decide

/-- `repr` escaping never emits a newline. -/
theorem newline_not_mem_pyReprEscape (delim c : Char)
    (hd : delim ≠ Char.ofNat 10) : Char.ofNat 10 ∉ pyReprEscape delim c := by
  intro hm
  rw [pyReprEscape] at hm
  by_cases h1 : c = Char.ofNat 92
  · rw [if_pos h1] at hm; revert hm; decide
  rw [if_neg h1] at hm
  by_cases h2 : c = delim
  · rw [if_pos h2] at hm
    simp only [List.mem_cons, List.not_mem_nil, or_false] at hm
    rcases hm with hm | hm
    · revert hm; decide
    · exact hd hm.symm
  rw [if_neg h2] at hm
  by_cases h3 : c = Char.ofNat 10
  · rw [if_pos h3] at hm; revert hm; decide
  rw [if_neg h3] at hm
  by_cases h4 : c = Char.ofNat 13
  · rw [if_pos h4] at hm; revert hm; decide
  rw [if_neg h4] at hm
  by_cases h5 : c = Char.ofNat 9
  · rw [if_pos h5] at hm; revert hm; decide
  rw [if_neg h5] at hm
  by_cases h6 : c.toNat < 32 ∨ c.toNat = 127
  · rw [if_pos h6] at hm
    rw [hex2] at hm
    have ha : c.toNat / 16 % 16 < 16 := Nat.mod_lt _ (by norm_num)
    have hb : c.toNat % 16 < 16 := Nat.mod_lt _ (by norm_num)
    simp only [List.mem_cons, List.not_mem_nil, or_false] at hm
    rcases hm with hm | hm | hm | hm
    · revert hm; decide
    · revert hm; decide
    · revert hm
      interval_cases hx : c.toNat / 16 % 16 <;> decide
    · revert hm
      interval_cases hx : c.toNat % 16 <;> decide
  · rw [if_neg h6, List.mem_singleton] at hm
    exact h3 hm.symm

/-- A rendered row never contains a newline. -/
theorem newline_not_mem_pyStrRow (row : List SqlValue) :
    Char.ofNat 10 ∉ pyStrRow row := by
  have hval : ∀ v : SqlValue, Char.ofNat 10 ∉ pyReprVal v := by
    intro v hm
    cases v with
    | intV n =>
      rw [pyReprVal, intRepr] at hm
      by_cases h : n < 0
      · rw [if_pos h, List.mem_cons] at hm
        rcases hm with hm | hm
        · cases hm
        · exact newline_not_mem_natDigitsGo _ _ hm
      · rw [if_neg h] at hm
        exact newline_not_mem_natDigitsGo _ _ hm
    | textV s =>
      rw [pyReprVal, pyReprStr] at hm
      revert hm
      set delim := if squote ∈ s ∧ dquote ∉ s then dquote else squote with hd
      have hdnl : delim ≠ Char.ofNat 10 := by
        rw [hd]; split <;> decide
      intro hm
      rcases List.mem_cons.mp hm with hm | hm
      · exact hdnl hm.symm
      rcases List.mem_append.mp hm with hm | hm
      · obtain ⟨c, _, hc⟩ := List.mem_flatMap.mp hm
        exact newline_not_mem_pyReprEscape delim c hdnl hc
      · rw [List.mem_singleton] at hm
        exact hdnl hm.symm
    | nullV => revert hm; decide
  intro hm
  cases row with
  | nil => revert hm; decide
  | cons v rest =>
    cases rest with
    | nil =>
      rw [pyStrRow] at hm
      rcases List.mem_cons.mp hm with hm | hm
      · cases hm
      rcases List.mem_append.mp hm with hm | hm
      · exact hval v hm
      · revert hm; decide
    | cons w rest =>
      rw [show pyStrRow (v :: w :: rest) = Char.ofNat 40 ::
        joinSep (", ".data) ((v :: w :: rest).map pyReprVal) ++
          [Char.ofNat 41] from rfl] at hm
      rcases List.mem_cons.mp hm with hm | hm
      · cases hm
      rcases List.mem_append.mp hm with hm | hm
      · rcases mem_joinSep hm with hm | ⟨l, hl, hc⟩
        · revert hm; decide
        · obtain ⟨u, _, rfl⟩ := List.mem_map.mp hl
          exact hval u hc
      · rw [List.mem_singleton] at hm
        cases hm

/-- `splitOn` undoes `joinSep` when no part contains the separator. -/
theorem splitOn_joinSep (x : Char) :
    ∀ ls : List (List Char), ls ≠ [] → (∀ l ∈ ls, x ∉ l) →
      (joinSep [x] ls).splitOn x = ls
  | [], hls, _ => absurd rfl hls
  | [l], _, h => by
    rw [show joinSep [x] [l] = l from rfl, List.splitOn]
    refine List.splitOnP_eq_single _ _ ?_
    intro y hy hxy
    exact h l (List.mem_singleton_self l) (by simpa using (beq_iff_eq.mp hxy) ▸ hy)
  | l :: l2 :: ls, _, h => by
    have hl : ∀ y ∈ l, ¬((y == x) = true) := by
      intro y hy hxy
      exact h l (List.mem_cons_self _ _) ((beq_iff_eq.mp hxy) ▸ hy)
    rw [show joinSep [x] (l :: l2 :: ls) = l ++ x :: joinSep [x] (l2 :: ls) by
      rw [show joinSep [x] (l :: l2 :: ls) = l ++ [x] ++ joinSep [x] (l2 :: ls) from rfl]
      simp]
    have hsp := List.splitOnP_first (fun y => y == x) l hl x (by simp)
      (joinSep [x] (l2 :: ls))
    rw [List.splitOn, hsp]
    rw [show (joinSep [x] (l2 :: ls)).splitOnP (· == x) =
      (joinSep [x] (l2 :: ls)).splitOn x from rfl]
    rw [splitOn_joinSep x (l2 :: ls) (by simp) fun m hm => h m (List.mem_cons_of_mem _ hm)]

/-- C8: the `query_task_database` tool surfaces a database error as the string
    `"Error executing query: " + e` instead of raising, formats an empty result
    set as the empty string, and formats a non-empty result set newline-joined
    with exactly one line per row. -/
theorem claim_C8_query_tool_formats (e : List Char) (rows : List (List SqlValue)) :
    query_task_database (.err e) = "Error executing query: ".data ++ e ∧
    query_task_database (.ok []) = [] ∧
    query_task_database (.ok rows) = joinSep [Char.ofNat 10] (rows.map pyStrRow) ∧
    (rows ≠ [] →
      ((query_task_database (.ok rows)).splitOn (Char.ofNat 10)).length =
        rows.length) := by
  refine ⟨rfl, rfl, rfl, fun hne => ?_⟩
  rw [show query_task_database (.ok rows) =
    joinSep [Char.ofNat 10] (rows.map pyStrRow) from rfl]
  rw [splitOn_joinSep _ (rows.map pyStrRow) (by simpa using hne) ?_]
  · simp
  · intro l hl
    obtain ⟨r, _, rfl⟩ := List.mem_map.mp hl
    exact newline_not_mem_pyStrRow r

/-- Witness for C8: a two-row result set renders as exactly two lines. -/
theorem claim_C8_witness :
    ((query_task_database (.ok [[.intV 1, .textV ("a".data)], [.nullV]])).splitOn
      (Char.ofNat 10)).length = 2 :=
  (claim_C8_query_tool_formats [] [[.intV 1, .textV ("a".data)], [.nullV]]).2.2.2
    (by decide)

/-! ### Notebook write tool (`agent.py` lines 266-330) -/

/-- The `notes` table contents: `(content, category, timestamp)` rows. -/
structure NotesDb where
  rows : List (List Char × List Char × List Char)
  deriving DecidableEq

/-- `_write_notes_to_notebook`, and the identical tool closure
    `write_notes_to_notebook` (`agent.py` lines 266-330): blank text is
    rejected before any insert; otherwise a `(content, category, timestamp)`
    row is inserted, the timestamp defaulting to `datetime.now().isoformat()`
    (`now`) when the argument is `None` or empty (Python truthiness). -/
def write_notes_to_notebook (db : NotesDb) (text category : List Char)
    (timestamp : Option (List Char)) (now : List Char) : List Char × NotesDb :=
  if pyStrip text = [] then ("Note content cannot be empty.".data, db)
  else
    let ts := match timestamp with
      | none => now
      | some t => if t = [] then now else t
    ("Note added to category: ".data ++ category,
      ⟨db.rows ++ [(text, category, ts)]⟩)

/-- C9: for text consisting only of whitespace (or empty), the note-writing
    interface returns "Note content cannot be empty." and inserts no row — the
    notes table is unchanged. -/
theorem claim_C9_blank_note_rejected (db : NotesDb) (text category now : List Char)
    (timestamp : Option (List Char)) (h : ∀ c ∈ text, pyIsSpace c = true) :
    write_notes_to_notebook db text category timestamp now =
      ("Note content cannot be empty.".data, db) := by
  have h1 : text.dropWhile pyIsSpace = [] := List.dropWhile_eq_nil_iff.mpr h
  have hs : pyStrip text = [] := by rw [pyStrip, h1]; rfl
  simp [write_notes_to_notebook, hs]

/-- Witness for C9: whitespace-only text is rejected and the table unchanged. -/
theorem claim_C9_witness :
    write_notes_to_notebook ⟨[]⟩ ("  \t ".data) ("Observation".data) none
        ("2025-01-01".data) =
      ("Note content cannot be empty.".data, ⟨[]⟩) :=
  claim_C9_blank_note_rejected ⟨[]⟩ ("  \t ".data) ("Observation".data)
    ("2025-01-01".data) none (by decide)

/-! ### Markdown note file codec (`notes_utils.py` lines 119-201)

`save_notes` renders a markdown document whose second line embeds the note
list as a JSON payload inside an HTML comment; `load_notes` prefers that
payload, extracting it with the non-greedy regex
`<!-- NOTES_JSON: (.*?) -->` and falling back to parsing the rendered markdown
sections when the comment marker is absent.  `json.dumps`/`json.loads` are
modelled by an exact printer for the emitted shape (a list of flat objects
with the keys category/content/timestamp, `ensure_ascii` escaping) and a
strict parser of that shape which fails exactly where `json.loads` fails on
the strings `load_notes` feeds it. -/

/-- The backslash character. -/
def bslash : Char := Char.ofNat 92

/-- The letter `u`, as in `\uXXXX` escapes. -/
def uchar : Char := Char.ofNat 117

/-- The left curly bracket. -/
def lcurly : Char := Char.ofNat 123

/-- The right curly bracket. -/
def rcurly : Char := Char.ofNat 125

/-- Four lowercase hex digits, as in `\uXXXX`. -/
def hex4 (n : ℕ) : List Char :=
  [hexDigitChar (n / 4096 % 16), hexDigitChar (n / 256 % 16),
    hexDigitChar (n / 16 % 16), hexDigitChar (n % 16)]

/-- `json.dumps` escaping of one character (default `ensure_ascii=True`):
    quote, backslash and the control shorthands are two-character escapes,
    other control characters and all non-ASCII become `\uXXXX` (a surrogate
    pair beyond the basic plane), printable ASCII is verbatim. -/
def jsonEscapeChar (c : Char) : List Char :=
  if c = dquote then [bslash, dquote]
  else if c = bslash then [bslash, bslash]
  else if c.toNat = 10 then [bslash, Char.ofNat 110]
  else if c.toNat = 13 then [bslash, Char.ofNat 114]
  else if c.toNat = 9 then [bslash, Char.ofNat 116]
  else if c.toNat = 8 then [bslash, Char.ofNat 98]
  else if c.toNat = 12 then [bslash, Char.ofNat 102]
  else if c.toNat < 32 then bslash :: uchar :: hex4 c.toNat
  else if c.toNat ≤ 126 then [c]
  else if c.toNat ≤ 65535 then bslash :: uchar :: hex4 c.toNat
  else
    bslash :: uchar :: hex4 (55296 + (c.toNat - 65536) / 1024) ++
      bslash :: uchar :: hex4 (56320 + (c.toNat - 65536) % 1024)

/-- `json.dumps` escaping of a whole string. -/
def jsonEscape (s : List Char) : List Char := s.flatMap jsonEscapeChar

/-- A JSON string literal: quote, escaped body, quote. -/
def jstr (s : List Char) : List Char := dquote :: jsonEscape s ++ [dquote]

/-- The dictionary `Note.to_dict` produces: the three string fields in
    insertion order category, content, timestamp. -/
structure NoteDict where
  category : List Char
  content : List Char
  timestamp : List Char
  deriving DecidableEq, Repr

/-- `Note.to_dict`. -/
def to_dict (n : Note) : NoteDict := ⟨n.category, n.content, n.timestamp⟩

/-- `Note.from_dict` on a dictionary carrying all three keys (the only shape
    the embedded payload parser produces; the `.get` defaults of the source
    are unreachable there). -/
def from_dict (d : NoteDict) : Note := ⟨d.category, d.content, d.timestamp⟩

/-- The key `"category"`. -/
def catKey : List Char := "category".data

/-- The key `"content"`. -/
def contKey : List Char := "content".data

/-- The key `"timestamp"`. -/
def tsKey : List Char := "timestamp".data

/-- `json.dumps` of one `to_dict` dictionary. -/
def dumpsDict (d : NoteDict) : List Char :=
  lcurly :: (jstr catKey ++ ": ".data ++ jstr d.category ++ ", ".data ++
    jstr contKey ++ ": ".data ++ jstr d.content ++ ", ".data ++
    jstr tsKey ++ ": ".data ++ jstr d.timestamp) ++ [rcurly]

/-- The comma-joined dictionaries inside the JSON list. -/
def dumpsInner : List NoteDict → List Char
  | [] => []
  | [d] => dumpsDict d
  | d :: ds => dumpsDict d ++ ", ".data ++ dumpsInner ds

/-- `json.dumps` of the note-dictionary list. -/
def dumps (ds : List NoteDict) : List Char :=
  Char.ofNat 91 :: dumpsInner ds ++ [Char.ofNat 93]

/-- Value of one hex digit (`json.loads` accepts both cases). -/
def hexVal (c : Char) : Option ℕ :=
  if 48 ≤ c.toNat ∧ c.toNat ≤ 57 then some (c.toNat - 48)
  else if 97 ≤ c.toNat ∧ c.toNat ≤ 102 then some (c.toNat - 87)
  else if 65 ≤ c.toNat ∧ c.toNat ≤ 70 then some (c.toNat - 55)
  else none

/-- Four hex digits. -/
def parseHex4 : List Char → Option (ℕ × List Char)
  | a :: b :: c :: d :: rest =>
    match hexVal a, hexVal b, hexVal c, hexVal d with
    | some va, some vb, some vc, some vd =>
      some (((va * 16 + vb) * 16 + vc) * 16 + vd, rest)
    | _, _, _, _ => none
  | _ => none

/-- One escape sequence after a backslash, with surrogate-pair combination as
    `json.loads` performs it (a lone surrogate is kept, unreachable from the
    printer). -/
def parseEsc : List Char → Option (Char × List Char)
  | [] => none
  | e :: rest =>
    if e = dquote then some (dquote, rest)
    else if e = bslash then some (bslash, rest)
    else if e.toNat = 47 then some (Char.ofNat 47, rest)
    else if e.toNat = 110 then some (Char.ofNat 10, rest)
    else if e.toNat = 114 then some (Char.ofNat 13, rest)
    else if e.toNat = 116 then some (Char.ofNat 9, rest)
    else if e.toNat = 98 then some (Char.ofNat 8, rest)
    else if e.toNat = 102 then some (Char.ofNat 12, rest)
    else if e = uchar then
      match parseHex4 rest with
      | none => none
      | some (h, rest2) =>
        if 55296 ≤ h ∧ h < 56320 then
          match rest2 with
          | b1 :: u1 :: rest3 =>
            if b1 = bslash ∧ u1 = uchar then
              match parseHex4 rest3 with
              | some (l, rest4) =>
                if 56320 ≤ l ∧ l < 57344 then
                  some (Char.ofNat (65536 + (h - 55296) * 1024 + (l - 56320)), rest4)
                else some (Char.ofNat h, rest2)
              | none => some (Char.ofNat h, rest2)
            else some (Char.ofNat h, rest2)
          | _ => some (Char.ofNat h, rest2)
        else some (Char.ofNat h, rest2)
    else none

/-- One step inside a JSON string literal: the closing quote (`none` output),
    an escape, or a verbatim character; a raw control character is an error
    exactly as in `json.loads`. -/
def parseOne (s : List Char) : Option (Option Char × List Char) :=
  match s with
  | [] => none
  | c :: rest =>
    if c = dquote then some (none, rest)
    else if c = bslash then (parseEsc rest).map (fun p => (some p.1, p.2))
    else if c.toNat < 32 then none
    else some (some c, rest)

/-- String-literal body: iterate `parseOne` until the closing quote; `fuel`
    bounds the number of steps (each consumes at least one character). -/
def parseJStrBody : ℕ → List Char → Option (List Char × List Char)
  | 0, _ => none
  | fuel + 1, s =>
    match parseOne s with
    | none => none
    | some (none, rest) => some ([], rest)
    | some (some c, rest) =>
      match parseJStrBody fuel rest with
      | none => none
      | some (str, rest2) => some (c :: str, rest2)

/-- A JSON string literal. -/
def parseJStr (s : List Char) : Option (List Char × List Char) :=
  match s with
  | c :: rest => if c = dquote then parseJStrBody (rest.length + 1) rest else none
  | [] => none

/-- Expect a literal. -/
def expectLit (lit : List Char) (s : List Char) : Option (List Char) :=
  if lit.isPrefixOf s then some (s.drop lit.length) else none

/-- Expect the given key followed by `": "`. -/
def parseKey (key : List Char) (s : List Char) : Option (List Char) :=
  match parseJStr s with
  | some (k, r) => if k = key then expectLit (": ".data) r else none
  | none => none

/-- One object of the payload: exactly the three keys in emitted order. -/
def parseDict (s : List Char) : Option (NoteDict × List Char) := do
  let r ← expectLit [lcurly] s
  let r ← parseKey catKey r
  let (v1, r) ← parseJStr r
  let r ← expectLit (", ".data) r
  let r ← parseKey contKey r
  let (v2, r) ← parseJStr r
  let r ← expectLit (", ".data) r
  let r ← parseKey tsKey r
  let (v3, r) ← parseJStr r
  let r ← expectLit [rcurly] r
  pure (⟨v1, v2, v3⟩, r)

/-- The comma-separated objects of a nonempty list, up to the closing
    bracket. -/
def parseItems : ℕ → List Char → Option (List NoteDict × List Char)
  | 0, _ => none
  | fuel + 1, s =>
    match parseDict s with
    | none => none
    | some (d, r) =>
      match r with
      | c :: r2 =>
        if c = Char.ofNat 93 then some ([d], r2)
        else if c = Char.ofNat 44 then
          match r2 with
          | sp :: r3 =>
            if sp = ' ' then
              match parseItems fuel r3 with
              | some (ds, r4) => some (d :: ds, r4)
              | none => none
            else none
          | [] => none
        else none
      | [] => none

/-- The JSON list of note dictionaries. -/
def parseNotes : List Char → Option (List NoteDict × List Char)
  | c :: d :: r2 =>
    if c = Char.ofNat 91 then
      if d = Char.ofNat 93 then some ([], r2)
      else parseItems ((d :: r2).length + 1) (d :: r2)
    else none
  | _ => none

/-- `json.loads` of the payload: the whole string must parse. -/
def parseNotesFull (s : List Char) : Option (List NoteDict) :=
  match parseNotes s with
  | some (ds, []) => some ds
  | _ => none

/-- The containment check `"<!-- NOTES_JSON:" in content`. -/
def markerChk : List Char := "<!-- NOTES_JSON:".data

/-- The literal head of the extraction regex `<!-- NOTES_JSON: (.*?) -->`. -/
def markerSp : List Char := "<!-- NOTES_JSON: ".data

/-- The terminator ` -->` of the extraction regex (and the ` -->` containment
    check). -/
def termStr : List Char := " -->".data

/-- Content before the first occurrence of `pat`, if any. -/
def takeUntil (pat : List Char) : List Char → Option (List Char)
  | [] => none
  | c :: r =>
    if pat.isPrefixOf (c :: r) then some []
    else (takeUntil pat r).map (c :: ·)

/-- `re.search(r"<!-- NOTES_JSON: (.*?) -->", content, re.DOTALL)`: the group
    starts after the first marker occurrence that is followed by the
    terminator and ends, non-greedily, at the first terminator after it. -/
def extractPayload : List Char → Option (List Char)
  | [] => none
  | c :: r =>
    if markerSp.isPrefixOf (c :: r) then
      takeUntil termStr (List.drop 17 (c :: r))
    else extractPayload r

/-- `Note.to_markdown`. -/
def to_markdown (n : Note) : List Char :=
  "## ".data ++ n.category ++ "\n".data ++ n.content ++
    "\n\n*Added: ".data ++ n.timestamp ++ "*\n\n---\n\n".data

/-- `save_notes` (`notes_utils.py` lines 173-201), modelled as the file content
    written on the success path: the header, the embedded JSON payload inside
    the comment marker, then one rendered markdown section per note. -/
def save_notes (notes : List Note) : List Char :=
  "# Notes\n\n".data ++ markerSp ++ dumps (notes.map to_dict) ++ termStr ++
    "\n\n".data ++ (notes.map to_markdown).flatten

/-! #### Fallback markdown section parsing (the `else` branch of `load_notes`).

Never reached on `save_notes` output, which always embeds the payload; it is
modelled here so that `load_notes` is total.  The regex backtracking of
`re.split(r"\n\s*---\s*\n", ...)`, `re.match(r"##\s+([A-Za-z ]+)\n(.+?)(\n\n\*Added:.+)?$", ..., re.DOTALL)`
and `re.search(r"\*Added:\s+(.+?)\*", ...)` is played out explicitly. -/

/-- Index of the last newline of a list, if any. -/
def lastNlIdx (w : List Char) : Option ℕ :=
  match w.reverse.findIdx? (fun c => decide (c = '\n')) with
  | some k => some (w.length - 1 - k)
  | none => none

/-- Length of a separator match `\n\s*---\s*\n` starting at the head: after
    the newline the greedy `\s*` must reach `---` directly, and the second
    greedy `\s*` ends at the last newline of the following whitespace run. -/
def sepMatchLen (s : List Char) : Option ℕ :=
  match s with
  | c :: r =>
    if c = '\n' then
      let w1 := r.takeWhile pyIsSpace
      let r1 := r.dropWhile pyIsSpace
      if ("---".data).isPrefixOf r1 then
        let w2 := (r1.drop 3).takeWhile pyIsSpace
        match lastNlIdx w2 with
        | some j => some (1 + w1.length + 3 + j + 1)
        | none => none
      else none
    else none
  | [] => none

/-- `re.split` on the separator, scanning left to right. -/
def splitSepGo : ℕ → List Char → List (List Char)
  | 0, s => [s]
  | fuel + 1, s =>
    match s with
    | [] => [[]]
    | c :: r =>
      match sepMatchLen (c :: r) with
      | some len => [] :: splitSepGo fuel (List.drop len (c :: r))
      | none =>
        match splitSepGo fuel r with
        | [] => [[c]]
        | h :: t => (c :: h) :: t

/-- `re.split(r"\n\s*---\s*\n", content)`. -/
def splitSep (s : List Char) : List (List Char) := splitSepGo (s.length + 1) s

/-- Backtracking of `\s+` in the section header pattern: try the whitespace
    run length from the greedy maximum down to one; for each, the maximal
    `[A-Za-z ]+` run must be nonempty and followed by a newline. -/
def tryHeaderSplit (r : List Char) : ℕ → Option (List Char × List Char)
  | 0 => none
  | i + 1 =>
    let rest := r.drop (i + 1)
    let cls := rest.takeWhile isLabelChar
    if cls ≠ [] ∧ (rest.drop cls.length).head? = some '\n' then
      some (cls, rest.drop (cls.length + 1))
    else tryHeaderSplit r i

/-- Match `##\s+([A-Za-z ]+)\n` at the start of a stripped section, returning
    the label group and the remainder after the newline. -/
def matchSectionHeader (s : List Char) : Option (List Char × List Char) :=
  if ("##".data).isPrefixOf s then
    let r := s.drop 2
    tryHeaderSplit r (r.takeWhile pyIsSpace).length
  else none

/-- Does the remainder after the non-greedy body group match
    `(\n\n\*Added:.+)?$` (with DOTALL)? -/
def bodyEndMatch (rem : List Char) : Bool :=
  (("\n\n*Added:".data).isPrefixOf rem ∧ 9 < rem.length) ∨ rem = [] ∨ rem = ['\n']

/-- The non-greedy `(.+?)`: the smallest body length from one upward whose
    remainder matches the tail of the pattern. -/
def findBody (rest2 : List Char) : ℕ → ℕ → Option ℕ
  | 0, _ => none
  | fuel + 1, j =>
    if bodyEndMatch (rest2.drop j) then some j
    else findBody rest2 fuel (j + 1)

/-- `re.match(r"##\s+([A-Za-z ]+)\n(.+?)(\n\n\*Added:.+)?$", section.strip(), re.DOTALL)`:
    the label group and the body group. -/
def matchSection (sec : List Char) : Option (List Char × List Char) :=
  let s := pyStrip sec
  match matchSectionHeader s with
  | some (g1, rest2) =>
    if rest2 = [] then none
    else
      match findBody rest2 (rest2.length + 1) 1 with
      | some j => some (g1, rest2.take j)
      | none => none
  | none => none

/-- Backtracking of `\s+` in `\*Added:\s+(.+?)\*`: try whitespace run lengths
    from the greedy maximum down; the group is the shortest nonempty
    newline-free run followed by a star. -/
def matchAddedAt (r : List Char) : ℕ → Option (List Char)
  | 0 => none
  | i + 1 =>
    let seg := (r.drop (i + 1)).takeWhile (fun c => decide (c ≠ '\n'))
    match (seg.drop 1).findIdx? (fun c => decide (c = '*')) with
    | some k => some (seg.take (k + 1))
    | none => matchAddedAt r i

/-- `re.search(r"\*Added:\s+(.+?)\*", section)`: leftmost occurrence of
    `*Added:` whose tail matches. -/
def searchAdded : List Char → Option (List Char)
  | [] => none
  | c :: r =>
    if ("*Added:".data).isPrefixOf (c :: r) then
      let r2 := List.drop 7 (c :: r)
      match matchAddedAt r2 (r2.takeWhile pyIsSpace).length with
      | some g => some g
      | none => searchAdded r
    else searchAdded r

/-- One section of the fallback path: blank sections are skipped, a matching
    section yields its stripped groups with the searched timestamp (or `now`),
    anything else is classified by `extract_category_from_text` with `now`. -/
def parseSectionNote (now : List Char) (sec : List Char) : Option Note :=
  if pyStrip sec = [] then none
  else
    match matchSection sec with
    | some (g1, g2) =>
      let timestamp := match searchAdded sec with
        | some t => t
        | none => now
      some ⟨pyStrip g1, pyStrip g2, timestamp⟩
    | none =>
      let cc := extract_category_from_text sec
      some ⟨cc.1, cc.2, now⟩

/-- The fallback markdown parsing of `load_notes`. -/
def parseMarkdownSections (now : List Char) (content : List Char) : List Note :=
  (splitSep content).filterMap (parseSectionNote now)

/-- `load_notes` (`notes_utils.py` lines 119-170) on a file content (the
    missing-file and IO-error paths are outside the model): when both the
    marker and the terminator occur, extract and parse the embedded payload —
    any regex or JSON failure yields the empty list, as the exception handler
    returns the untouched `notes = []` — otherwise parse the rendered
    sections.  `now` stands for `datetime.now().isoformat()`. -/
def load_notes (now : List Char) (content : List Char) : List Note :=
  if containsSub markerChk content ∧ containsSub termStr content then
    match extractPayload content with
    | some payload =>
      match parseNotesFull payload with
      | some ds => ds.map from_dict
      | none => []
    | none => []
  else parseMarkdownSections now content

/-! #### Inversion: the strict parser recovers exactly what the printer emits -/

/-- Unicode scalar values: below the surrogate range or above it. -/
theorem char_valid_nat (c : Char) :
    c.toNat < 55296 ∨ (57343 < c.toNat ∧ c.toNat < 1114112) := by
  rcases c.valid with h | ⟨h1, h2⟩
  · exact Or.inl (UInt32.toNat_lt_of_lt (by decide) h)
  · exact Or.inr ⟨UInt32.lt_toNat_of_lt (by decide) h1,
      UInt32.toNat_lt_of_lt (by decide) h2⟩

/-- Hex digits read back their value. -/
theorem hexVal_hexDigitChar (k : ℕ) (hk : k < 16) :
    hexVal (hexDigitChar k) = some k := by
  interval_cases k <;> decide

/-- `parseHex4` inverts `hex4` below 2^16. -/
theorem parseHex4_hex4 (v : ℕ) (hv : v < 65536) (t : List Char) :
    parseHex4 (hex4 v ++ t) = some (v, t) := by
  have h1 : v / 4096 % 16 < 16 := Nat.mod_lt _ (by norm_num)
  have h2 : v / 256 % 16 < 16 := Nat.mod_lt _ (by norm_num)
  have h3 : v / 16 % 16 < 16 := Nat.mod_lt _ (by norm_num)
  have h4 : v % 16 < 16 := Nat.mod_lt _ (by norm_num)
  rw [show hex4 v ++ t = hexDigitChar (v / 4096 % 16) :: hexDigitChar (v / 256 % 16) ::
    hexDigitChar (v / 16 % 16) :: hexDigitChar (v % 16) :: t from rfl]
  rw [parseHex4, hexVal_hexDigitChar _ h1, hexVal_hexDigitChar _ h2,
    hexVal_hexDigitChar _ h3, hexVal_hexDigitChar _ h4]
  show some (((v / 4096 % 16 * 16 + v / 256 % 16) * 16 + v / 16 % 16) * 16 + v % 16, t)
    = some (v, t)
  have hval : ((v / 4096 % 16 * 16 + v / 256 % 16) * 16 + v / 16 % 16) * 16 + v % 16 = v := by
    omega
  rw [hval]

/-- Every escape is nonempty. -/
theorem jsonEscapeChar_length_pos (c : Char) : 0 < (jsonEscapeChar c).length := by
  rw [jsonEscapeChar]
  split_ifs <;> simp

/-- The escape of a string is at least as long as the string. -/
theorem jsonEscape_length (s : List Char) : s.length ≤ (jsonEscape s).length := by
  induction s with
  | nil => simp [jsonEscape]
  | cons c cs ih =>
    rw [show jsonEscape (c :: cs) = jsonEscapeChar c ++ jsonEscape cs from rfl]
    rw [List.length_cons, List.length_append]
    have := jsonEscapeChar_length_pos c
    omega

/-- One parse step consumes exactly one escaped character. -/
theorem parseOne_jsonEscapeChar (c : Char) (t : List Char) :
    parseOne (jsonEscapeChar c ++ t) = some (some c, t) := by
  by_cases h1 : c = dquote
  · subst h1; simp +decide [jsonEscapeChar, parseOne, parseEsc]
  by_cases h2 : c = bslash
  · subst h2; simp +decide [jsonEscapeChar, parseOne, parseEsc]
  by_cases h3 : c.toNat = 10
  · rw [show c = Char.ofNat 10 from by rw [← Char.ofNat_toNat c, h3]]
    simp +decide [jsonEscapeChar, parseOne, parseEsc]
  by_cases h4 : c.toNat = 13
  · rw [show c = Char.ofNat 13 from by rw [← Char.ofNat_toNat c, h4]]
    simp +decide [jsonEscapeChar, parseOne, parseEsc]
  by_cases h5 : c.toNat = 9
  · rw [show c = Char.ofNat 9 from by rw [← Char.ofNat_toNat c, h5]]
    simp +decide [jsonEscapeChar, parseOne, parseEsc]
  by_cases h6 : c.toNat = 8
  · rw [show c = Char.ofNat 8 from by rw [← Char.ofNat_toNat c, h6]]
    simp +decide [jsonEscapeChar, parseOne, parseEsc]
  by_cases h7 : c.toNat = 12
  · rw [show c = Char.ofNat 12 from by rw [← Char.ofNat_toNat c, h7]]
    simp +decide [jsonEscapeChar, parseOne, parseEsc]
  by_cases h8 : c.toNat < 32
  · rw [jsonEscapeChar, if_neg h1, if_neg h2, if_neg h3, if_neg h4, if_neg h5,
      if_neg h6, if_neg h7, if_pos h8]
    rw [show (bslash :: uchar :: hex4 c.toNat) ++ t =
      bslash :: uchar :: (hex4 c.toNat ++ t) from by simp]
    have hns : ¬ (55296 ≤ c.toNat ∧ c.toNat < 56320) := by omega
    simp +decide [parseOne, parseEsc, parseHex4_hex4 c.toNat (by omega) t, hns,
      Char.ofNat_toNat]
  by_cases h9 : c.toNat ≤ 126
  · rw [jsonEscapeChar, if_neg h1, if_neg h2, if_neg h3, if_neg h4, if_neg h5,
      if_neg h6, if_neg h7, if_neg h8, if_pos h9]
    rw [show [c] ++ t = c :: t from rfl, parseOne]
    rw [if_neg h1, if_neg h2, if_neg (by omega)]
  by_cases h10 : c.toNat ≤ 65535
  · rw [jsonEscapeChar, if_neg h1, if_neg h2, if_neg h3, if_neg h4, if_neg h5,
      if_neg h6, if_neg h7, if_neg h8, if_neg h9, if_pos h10]
    rw [show (bslash :: uchar :: hex4 c.toNat) ++ t =
      bslash :: uchar :: (hex4 c.toNat ++ t) from by simp]
    have hns : ¬ (55296 ≤ c.toNat ∧ c.toNat < 56320) := by
      rcases char_valid_nat c with h | h <;> omega
    simp +decide [parseOne, parseEsc, parseHex4_hex4 c.toNat (by omega) t, hns,
      Char.ofNat_toNat]
  · rw [jsonEscapeChar, if_neg h1, if_neg h2, if_neg h3, if_neg h4, if_neg h5,
      if_neg h6, if_neg h7, if_neg h8, if_neg h9, if_neg h10]
    have hup : c.toNat < 1114112 := by
      rcases char_valid_nat c with h | h <;> omega
    have hhi : 55296 ≤ 55296 + (c.toNat - 65536) / 1024 ∧
        55296 + (c.toNat - 65536) / 1024 < 56320 := by omega
    have hlo : 56320 ≤ 56320 + (c.toNat - 65536) % 1024 ∧
        56320 + (c.toNat - 65536) % 1024 < 57344 := by omega
    rw [show (bslash :: uchar :: hex4 (55296 + (c.toNat - 65536) / 1024) ++
        bslash :: uchar :: hex4 (56320 + (c.toNat - 65536) % 1024)) ++ t =
      bslash :: uchar :: (hex4 (55296 + (c.toNat - 65536) / 1024) ++
        (bslash :: uchar :: (hex4 (56320 + (c.toNat - 65536) % 1024) ++ t)))
      from by simp]
    have hcomb : 65536 + (c.toNat - 65536) / 1024 * 1024 +
        (c.toNat - 65536) % 1024 = c.toNat := by omega
    simp +decide [parseOne, parseEsc,
      parseHex4_hex4 (55296 + (c.toNat - 65536) / 1024) (by omega),
      parseHex4_hex4 (56320 + (c.toNat - 65536) % 1024) (by omega),
      hhi, hlo]
    rw [hcomb, Char.ofNat_toNat]

/-- The string-body parser inverts the escaper, given enough fuel. -/
theorem parseJStrBody_jsonEscape (s : List Char) : ∀ (fuel : ℕ) (t : List Char),
    s.length + 1 ≤ fuel →
    parseJStrBody fuel (jsonEscape s ++ dquote :: t) = some (s, t) := by
  induction s with
  | nil =>
    intro fuel t hf
    match fuel, hf with
    | f + 1, _ => simp +decide [jsonEscape, parseJStrBody, parseOne]
  | cons c cs ih =>
    intro fuel t hf
    match fuel, hf with
    | f + 1, hf =>
      rw [show jsonEscape (c :: cs) = jsonEscapeChar c ++ jsonEscape cs from rfl,
        List.append_assoc, parseJStrBody,
        parseOne_jsonEscapeChar c (jsonEscape cs ++ dquote :: t)]
      show (match parseJStrBody f (jsonEscape cs ++ dquote :: t) with
        | none => none
        | some (str, rest2) => some (c :: str, rest2)) = some (c :: cs, t)
      rw [ih f t (by simpa using hf)]

/-- The string parser inverts the string printer. -/
theorem parseJStr_jstr (s t : List Char) : parseJStr (jstr s ++ t) = some (s, t) := by
  rw [show jstr s ++ t = dquote :: (jsonEscape s ++ dquote :: t) from by
    simp [jstr]]
  rw [parseJStr, if_pos rfl]
  refine parseJStrBody_jsonEscape s _ t ?_
  have h1 := jsonEscape_length s
  rw [List.length_append]
  simp only [List.length_cons]
  omega

/-- `expectLit` consumes its literal. -/
theorem expectLit_append (lit t : List Char) : expectLit lit (lit ++ t) = some t := by
  rw [expectLit, if_pos (List.isPrefixOf_iff_prefix.mpr (List.prefix_append lit t))]
  rw [List.drop_left]

/-- `expectLit` on a single character. -/
theorem expectLit_cons (x : Char) (t : List Char) :
    expectLit [x] (x :: t) = some t :=
  expectLit_append [x] t

/-- `parseKey` consumes an emitted key and its separator. -/
theorem parseKey_emitted (key X : List Char) :
    parseKey key (jstr key ++ ([':', ' '] ++ X)) = some X := by
  rw [parseKey, parseJStr_jstr]
  show (if key = key then expectLit (": ".data) ([':', ' '] ++ X) else none) = some X
  rw [if_pos rfl, show (": ".data : List Char) = [':', ' '] from rfl, expectLit_append]

/-- The object parser inverts the object printer. -/
theorem parseDict_dumpsDict (d : NoteDict) (t : List Char) :
    parseDict (dumpsDict d ++ t) = some (d, t) := by
  have e1 : dumpsDict d ++ t = lcurly :: (jstr catKey ++ ([':', ' '] ++
      (jstr d.category ++ ([',', ' '] ++ (jstr contKey ++ ([':', ' '] ++
      (jstr d.content ++ ([',', ' '] ++ (jstr tsKey ++ ([':', ' '] ++
      (jstr d.timestamp ++ (rcurly :: t)))))))))))) := by
    simp [dumpsDict]
  rw [e1, parseDict]
  simp only [expectLit_cons, parseKey_emitted, parseJStr_jstr, expectLit_append,
    Option.bind_eq_bind, Option.some_bind]
  rfl

/-- `dumpsInner` of a nonempty list is at least one character per object. -/
theorem dumpsInner_length : ∀ ds : List NoteDict, ds.length ≤ (dumpsInner ds).length
  | [] => by simp [dumpsInner]
  | [d] => by
    rw [show dumpsInner [d] = dumpsDict d from rfl, dumpsDict]
    simp
  | d :: d2 :: ds => by
    rw [show dumpsInner (d :: d2 :: ds) =
      dumpsDict d ++ ", ".data ++ dumpsInner (d2 :: ds) from rfl]
    have h1 := dumpsInner_length (d2 :: ds)
    rw [dumpsDict]
    simp only [List.length_append, List.length_cons]
    simp at h1 ⊢
    omega

/-- The item loop inverts the comma-joined objects, given enough fuel. -/
theorem parseItems_dumpsInner : ∀ (ds : List NoteDict) (fuel : ℕ) (t : List Char),
    ds ≠ [] → ds.length ≤ fuel →
    parseItems fuel (dumpsInner ds ++ Char.ofNat 93 :: t) = some (ds, t)
  | [], _, _, hne, _ => absurd rfl hne
  | [d], fuel + 1, t, _, _ => by
    rw [show dumpsInner [d] = dumpsDict d from rfl, parseItems, parseDict_dumpsDict]
    simp
  | d :: d2 :: ds, fuel + 1, t, _, hf => by
    rw [show dumpsInner (d :: d2 :: ds) ++ Char.ofNat 93 :: t =
      dumpsDict d ++ (Char.ofNat 44 :: ' ' ::
        (dumpsInner (d2 :: ds) ++ Char.ofNat 93 :: t)) from by
      rw [show dumpsInner (d :: d2 :: ds) =
        dumpsDict d ++ ", ".data ++ dumpsInner (d2 :: ds) from rfl]
      simp +decide]
    rw [parseItems, parseDict_dumpsDict]
    simp +decide [parseItems_dumpsInner (d2 :: ds) fuel t (by simp) (by simpa using hf)]

/-- An emitted object starts with the opening curly bracket. -/
theorem dumpsDict_head (d : NoteDict) : ∃ rest, dumpsDict d = lcurly :: rest :=
  ⟨_, rfl⟩

/-- `dumpsInner` of a cons starts with the opening curly bracket. -/
theorem dumpsInner_cons_head (d : NoteDict) (ds : List NoteDict) :
    ∃ rest, dumpsInner (d :: ds) = lcurly :: rest := by
  obtain ⟨r1, h1⟩ := dumpsDict_head d
  cases ds with
  | nil => exact ⟨r1, h1⟩
  | cons d2 ds =>
    refine ⟨r1 ++ ", ".data ++ dumpsInner (d2 :: ds), ?_⟩
    rw [show dumpsInner (d :: d2 :: ds) =
      dumpsDict d ++ ", ".data ++ dumpsInner (d2 :: ds) from rfl, h1]
    simp

/-- `json.loads` inverts `json.dumps` on note-dictionary lists. -/
theorem parseNotesFull_dumps (ds : List NoteDict) :
    parseNotesFull (dumps ds) = some ds := by
  cases ds with
  | nil => decide
  | cons d ds =>
    obtain ⟨rest, hrest⟩ := dumpsInner_cons_head d ds
    have hshape : dumps (d :: ds) =
        Char.ofNat 91 :: lcurly :: (rest ++ [Char.ofNat 93]) := by
      rw [dumps, hrest]
      rfl
    have hp : parseNotes (dumps (d :: ds)) = some (d :: ds, []) := by
      rw [hshape]
      rw [show parseNotes (Char.ofNat 91 :: lcurly :: (rest ++ [Char.ofNat 93])) =
        if lcurly = Char.ofNat 93 then some ([], rest ++ [Char.ofNat 93])
        else parseItems ((lcurly :: (rest ++ [Char.ofNat 93])).length + 1)
          (lcurly :: (rest ++ [Char.ofNat 93])) from by
        rw [parseNotes, if_pos rfl]]
      rw [if_neg (by decide)]
      have hlen : (d :: ds).length ≤
          (lcurly :: (rest ++ [Char.ofNat 93])).length + 1 := by
        have h2 := dumpsInner_length (d :: ds)
        rw [hrest] at h2
        simp only [List.length_cons, List.length_append] at h2 ⊢
        omega
      rw [show lcurly :: (rest ++ [Char.ofNat 93]) =
        dumpsInner (d :: ds) ++ Char.ofNat 93 :: [] from by rw [hrest]; rfl]
      rw [parseItems_dumpsInner (d :: ds) _ [] (by simp) ?_]
      rw [hrest]
      simp only [List.length_cons, List.length_append]
      have h2 := dumpsInner_length (d :: ds)
      rw [hrest] at h2
      simp only [List.length_cons] at h2
      omega
    simp [parseNotesFull, hp]

/-! #### Cleanliness: the payload contains the terminator exactly where a note
field does -/

/-- A pattern occurring verbatim is found. -/
theorem containsSub_cons (pat : List Char) (c : Char) (r : List Char) :
    containsSub pat (c :: r) = (pat.isPrefixOf (c :: r) || containsSub pat r) := rfl

/-- A pattern occurring verbatim is found. -/
theorem containsSub_of_isPrefixOf {pat s : List Char} (hp : pat ≠ [])
    (h : pat <+: s) : containsSub pat s = true := by
  cases s with
  | nil =>
    rw [List.prefix_nil] at h
    exact absurd h hp
  | cons c r =>
    rw [containsSub_cons, List.isPrefixOf_iff_prefix.mpr h]
    rfl

/-- A decomposed occurrence is found. -/
theorem containsSub_of_decomp (pat : List Char) (hp : pat ≠ []) :
    ∀ (a b : List Char), containsSub pat (a ++ pat ++ b) = true
  | [], b => by
    rw [List.nil_append]
    exact containsSub_of_isPrefixOf hp (List.prefix_append pat b)
  | c :: a, b => by
    rw [show (c :: a) ++ pat ++ b = c :: (a ++ pat ++ b) from by simp,
      containsSub_cons, containsSub_of_decomp pat hp a b, Bool.or_true]

/-- Occurrences extend over a cons. -/
theorem containsSub_cons_of {pat r : List Char} (c : Char)
    (h : containsSub pat r = true) : containsSub pat (c :: r) = true := by
  rw [containsSub_cons, h, Bool.or_true]

/-- Nothing shorter than the pattern contains it. -/
theorem containsSub_short {pat : List Char} :
    ∀ {s : List Char}, s.length < pat.length → containsSub pat s = false
  | [], _ => rfl
  | c :: r, h => by
    rw [containsSub_cons, Bool.or_eq_false_iff]
    constructor
    · by_contra hb
      rw [Bool.not_eq_false, List.isPrefixOf_iff_prefix] at hb
      have h2 := hb.length_le
      simp only [List.length_cons] at h h2
      omega
    · exact containsSub_short (by simp only [List.length_cons] at h; omega)

/-- A string missing the pattern head cannot contain the pattern. -/
theorem containsSub_of_head_not_mem {p : Char} {pr : List Char} :
    ∀ {s : List Char}, p ∉ s → containsSub (p :: pr) s = false
  | [], _ => rfl
  | c :: r, h => by
    rw [containsSub_cons, Bool.or_eq_false_iff]
    refine ⟨?_, containsSub_of_head_not_mem (fun hm => h (List.mem_cons_of_mem _ hm))⟩
    by_contra hb
    rw [Bool.not_eq_false, List.isPrefixOf_iff_prefix] at hb
    obtain ⟨t, ht⟩ := hb
    rw [List.cons_append] at ht
    exact h (ht ▸ List.mem_cons_self _ _)

/-- An occurrence in an append is inside one part or bridges the seam. -/
theorem containsSub_split {pat : List Char} (hp : pat ≠ []) :
    ∀ {a b : List Char}, containsSub pat (a ++ b) = true →
      containsSub pat a = true ∨ containsSub pat b = true ∨
        ∃ i, 0 < i ∧ i < pat.length ∧ pat.take i <:+ a ∧ pat.drop i <+: b := by
  intro a
  induction a with
  | nil => intro b h; rw [List.nil_append] at h; exact Or.inr (Or.inl h)
  | cons c a ih =>
    intro b h
    rw [List.cons_append, containsSub_cons, Bool.or_eq_true] at h
    rcases h with h | h
    · rw [List.isPrefixOf_iff_prefix, ← List.cons_append] at h
      by_cases hl : pat.length ≤ (c :: a).length
      · refine Or.inl (containsSub_of_isPrefixOf hp ?_)
        exact List.prefix_of_prefix_length_le h (List.prefix_append _ _) hl
      · refine Or.inr (Or.inr ⟨(c :: a).length, by simp, by omega, ?_, ?_⟩)
        · have hca : (c :: a) <+: pat :=
            List.prefix_of_prefix_length_le (List.prefix_append _ _) h (by omega)
          rw [← List.prefix_iff_eq_take.mp hca]
        · have hd := h.drop (c :: a).length
          rwa [List.drop_left] at hd
    · rcases ih h with h2 | h2 | ⟨i, hi0, hiL, hsuf, hpre⟩
      · exact Or.inl (containsSub_cons_of c h2)
      · exact Or.inr (Or.inl h2)
      · exact Or.inr (Or.inr ⟨i, hi0, hiL, hsuf.trans (List.suffix_cons c a), hpre⟩)

/-- Appending keeps the terminator out when the right part starts with a
    character the terminator tail cannot start with. -/
theorem clean_append_head {a b : List Char}
    (ha : containsSub termStr a = false) (hb : containsSub termStr b = false)
    (hhead : ∀ c, b.head? = some c → c ≠ Char.ofNat 45 ∧ c ≠ Char.ofNat 62) :
    containsSub termStr (a ++ b) = false := by
  cases hcs : containsSub termStr (a ++ b) with
  | false => rfl
  | true =>
    exfalso
    rcases containsSub_split (by decide) hcs with h | h | ⟨i, hi0, hiL, _, hpre⟩
    · rw [ha] at h; cases h
    · rw [hb] at h; cases h
    · have hiL4 : i < 4 := by simpa [termStr] using hiL
      interval_cases i
      · obtain ⟨t, ht⟩ := hpre
        have : b.head? = some (Char.ofNat 45) := by
          rw [← ht, show termStr.drop 1 = Char.ofNat 45 :: [Char.ofNat 45,
            Char.ofNat 62] from by decide]
          rfl
        exact (hhead _ this).1 rfl
      · obtain ⟨t, ht⟩ := hpre
        have : b.head? = some (Char.ofNat 45) := by
          rw [← ht, show termStr.drop 2 = Char.ofNat 45 :: [Char.ofNat 62]
            from by decide]
          rfl
        exact (hhead _ this).1 rfl
      · obtain ⟨t, ht⟩ := hpre
        have : b.head? = some (Char.ofNat 62) := by
          rw [← ht, show termStr.drop 3 = Char.ofNat 62 :: [] from by decide]
          rfl
        exact (hhead _ this).2 rfl

/-- Appending keeps the terminator out when the left part ends with a
    character the terminator prefixes cannot end with. -/
theorem clean_append_last {a b : List Char}
    (ha : containsSub termStr a = false) (hb : containsSub termStr b = false)
    (hlast : ∀ c, a.getLast? = some c → c ≠ ' ' ∧ c ≠ Char.ofNat 45) :
    containsSub termStr (a ++ b) = false := by
  cases hcs : containsSub termStr (a ++ b) with
  | false => rfl
  | true =>
    exfalso
    rcases containsSub_split (by decide) hcs with h | h | ⟨i, hi0, hiL, hsuf, _⟩
    · rw [ha] at h; cases h
    · rw [hb] at h; cases h
    · have hiL4 : i < 4 := by simpa [termStr] using hiL
      interval_cases i
      · obtain ⟨t, ht⟩ := hsuf
        have : a.getLast? = some ' ' := by
          rw [← ht, show termStr.take 1 = [' '] from by decide, List.getLast?_concat]
        exact (hlast _ this).1 rfl
      · obtain ⟨t, ht⟩ := hsuf
        have : a.getLast? = some (Char.ofNat 45) := by
          rw [← ht, show termStr.take 2 = [' '] ++ [Char.ofNat 45] from by decide,
            ← List.append_assoc, List.getLast?_concat]
        exact (hlast _ this).2 rfl
      · obtain ⟨t, ht⟩ := hsuf
        have : a.getLast? = some (Char.ofNat 45) := by
          rw [← ht, show termStr.take 3 = [' ', Char.ofNat 45] ++ [Char.ofNat 45]
            from by decide, ← List.append_assoc, List.getLast?_concat]
        exact (hlast _ this).2 rfl

/-- `isPrefixOf` on two conses. -/
theorem isPrefixOf_cons_cons (a b : Char) (as bs : List Char) :
    (a :: as).isPrefixOf (b :: bs) = (a == b && as.isPrefixOf bs) := rfl

/-- `jsonEscape` on a cons. -/
theorem jsonEscape_cons (c : Char) (cs : List Char) :
    jsonEscape (c :: cs) = jsonEscapeChar c ++ jsonEscape cs := rfl

/-- Hex digits are neither space nor dash. -/
theorem hexDigitChar_ne (k : ℕ) (hk : k < 16) :
    hexDigitChar k ≠ ' ' ∧ hexDigitChar k ≠ Char.ofNat 45 := by
  interval_cases k <;> exact ⟨by decide, by decide⟩

/-- The possible results of one escape, enumerated. -/
theorem jsonEscapeChar_cases (c : Char) :
    jsonEscapeChar c = [c] ∨
    jsonEscapeChar c = [bslash, dquote] ∨
    jsonEscapeChar c = [bslash, bslash] ∨
    jsonEscapeChar c = [bslash, Char.ofNat 110] ∨
    jsonEscapeChar c = [bslash, Char.ofNat 114] ∨
    jsonEscapeChar c = [bslash, Char.ofNat 116] ∨
    jsonEscapeChar c = [bslash, Char.ofNat 98] ∨
    jsonEscapeChar c = [bslash, Char.ofNat 102] ∨
    jsonEscapeChar c = bslash :: uchar :: hex4 c.toNat ∨
    jsonEscapeChar c = bslash :: uchar :: hex4 (55296 + (c.toNat - 65536) / 1024) ++
      bslash :: uchar :: hex4 (56320 + (c.toNat - 65536) % 1024) := by
  rw [jsonEscapeChar]
  by_cases h1 : c = dquote
  · rw [if_pos h1]; exact Or.inr (Or.inl rfl)
  rw [if_neg h1]
  by_cases h2 : c = bslash
  · rw [if_pos h2]; exact Or.inr (Or.inr (Or.inl rfl))
  rw [if_neg h2]
  by_cases h3 : c.toNat = 10
  · rw [if_pos h3]; exact Or.inr (Or.inr (Or.inr (Or.inl rfl)))
  rw [if_neg h3]
  by_cases h4 : c.toNat = 13
  · rw [if_pos h4]; exact Or.inr (Or.inr (Or.inr (Or.inr (Or.inl rfl))))
  rw [if_neg h4]
  by_cases h5 : c.toNat = 9
  · rw [if_pos h5]; exact Or.inr (Or.inr (Or.inr (Or.inr (Or.inr (Or.inl rfl)))))
  rw [if_neg h5]
  by_cases h6 : c.toNat = 8
  · rw [if_pos h6]
    exact Or.inr (Or.inr (Or.inr (Or.inr (Or.inr (Or.inr (Or.inl rfl))))))
  rw [if_neg h6]
  by_cases h7 : c.toNat = 12
  · rw [if_pos h7]
    exact Or.inr (Or.inr (Or.inr (Or.inr (Or.inr (Or.inr (Or.inr (Or.inl rfl)))))))
  rw [if_neg h7]
  by_cases h8 : c.toNat < 32
  · rw [if_pos h8]
    exact Or.inr (Or.inr (Or.inr (Or.inr (Or.inr (Or.inr (Or.inr (Or.inr
      (Or.inl rfl))))))))
  rw [if_neg h8]
  by_cases h9 : c.toNat ≤ 126
  · rw [if_pos h9]; exact Or.inl rfl
  rw [if_neg h9]
  by_cases h10 : c.toNat ≤ 65535
  · rw [if_pos h10]
    exact Or.inr (Or.inr (Or.inr (Or.inr (Or.inr (Or.inr (Or.inr (Or.inr
      (Or.inl rfl))))))))
  rw [if_neg h10]
  exact Or.inr (Or.inr (Or.inr (Or.inr (Or.inr (Or.inr (Or.inr (Or.inr
    (Or.inr rfl))))))))

/-- The last character of anything ending in `hex4 n`. -/
theorem hex4_last (pre : List Char) (n : ℕ) :
    (pre ++ hex4 n).getLast? = some (hexDigitChar (n % 16)) := by
  rw [hex4, show pre ++ [hexDigitChar (n / 4096 % 16), hexDigitChar (n / 256 % 16),
      hexDigitChar (n / 16 % 16), hexDigitChar (n % 16)] =
    (pre ++ [hexDigitChar (n / 4096 % 16), hexDigitChar (n / 256 % 16),
      hexDigitChar (n / 16 % 16)]) ++ [hexDigitChar (n % 16)] from by simp,
    List.getLast?_concat]

/-- An escape is the character itself, or at least two characters ending in a
    character that no terminator piece ends with. -/
theorem jsonEscapeChar_shape (c : Char) : jsonEscapeChar c = [c] ∨
    (2 ≤ (jsonEscapeChar c).length ∧
      ∀ x, (jsonEscapeChar c).getLast? = some x → x ≠ ' ' ∧ x ≠ Char.ofNat 45) := by
  rcases jsonEscapeChar_cases c with h|h|h|h|h|h|h|h|h|h
  · exact Or.inl h
  · refine Or.inr ⟨by rw [h]; simp, fun x hx => ?_⟩
    rw [h, show [bslash, dquote] = [bslash] ++ [dquote] from rfl,
      List.getLast?_concat] at hx
    injection hx with hx2
    subst hx2
    exact ⟨by decide, by decide⟩
  · refine Or.inr ⟨by rw [h]; simp, fun x hx => ?_⟩
    rw [h, show [bslash, bslash] = [bslash] ++ [bslash] from rfl,
      List.getLast?_concat] at hx
    injection hx with hx2
    subst hx2
    exact ⟨by decide, by decide⟩
  · refine Or.inr ⟨by rw [h]; simp, fun x hx => ?_⟩
    rw [h, show [bslash, Char.ofNat 110] = [bslash] ++ [Char.ofNat 110] from rfl,
      List.getLast?_concat] at hx
    injection hx with hx2
    subst hx2
    exact ⟨by decide, by decide⟩
  · refine Or.inr ⟨by rw [h]; simp, fun x hx => ?_⟩
    rw [h, show [bslash, Char.ofNat 114] = [bslash] ++ [Char.ofNat 114] from rfl,
      List.getLast?_concat] at hx
    injection hx with hx2
    subst hx2
    exact ⟨by decide, by decide⟩
  · refine Or.inr ⟨by rw [h]; simp, fun x hx => ?_⟩
    rw [h, show [bslash, Char.ofNat 116] = [bslash] ++ [Char.ofNat 116] from rfl,
      List.getLast?_concat] at hx
    injection hx with hx2
    subst hx2
    exact ⟨by decide, by decide⟩
  · refine Or.inr ⟨by rw [h]; simp, fun x hx => ?_⟩
    rw [h, show [bslash, Char.ofNat 98] = [bslash] ++ [Char.ofNat 98] from rfl,
      List.getLast?_concat] at hx
    injection hx with hx2
    subst hx2
    exact ⟨by decide, by decide⟩
  · refine Or.inr ⟨by rw [h]; simp, fun x hx => ?_⟩
    rw [h, show [bslash, Char.ofNat 102] = [bslash] ++ [Char.ofNat 102] from rfl,
      List.getLast?_concat] at hx
    injection hx with hx2
    subst hx2
    exact ⟨by decide, by decide⟩
  · refine Or.inr ⟨by rw [h]; simp [hex4], fun x hx => ?_⟩
    rw [h, show bslash :: uchar :: hex4 c.toNat = [bslash, uchar] ++ hex4 c.toNat
      from rfl, hex4_last] at hx
    injection hx with hx2
    subst hx2
    exact hexDigitChar_ne _ (Nat.mod_lt _ (by norm_num))
  · refine Or.inr ⟨by rw [h]; simp [hex4], fun x hx => ?_⟩
    rw [h, show bslash :: uchar :: hex4 (55296 + (c.toNat - 65536) / 1024) ++
        bslash :: uchar :: hex4 (56320 + (c.toNat - 65536) % 1024) =
      ((bslash :: uchar :: hex4 (55296 + (c.toNat - 65536) / 1024)) ++
        [bslash, uchar]) ++ hex4 (56320 + (c.toNat - 65536) % 1024)
      from by simp, hex4_last] at hx
    injection hx with hx2
    subst hx2
    exact hexDigitChar_ne _ (Nat.mod_lt _ (by norm_num))

/-- An escape is the character itself or starts with a backslash. -/
theorem jsonEscapeChar_head (c : Char) : jsonEscapeChar c = [c] ∨
    ∃ rest, jsonEscapeChar c = bslash :: rest := by
  rcases jsonEscapeChar_cases c with h|h|h|h|h|h|h|h|h|h
  · exact Or.inl h
  · exact Or.inr ⟨_, h⟩
  · exact Or.inr ⟨_, h⟩
  · exact Or.inr ⟨_, h⟩
  · exact Or.inr ⟨_, h⟩
  · exact Or.inr ⟨_, h⟩
  · exact Or.inr ⟨_, h⟩
  · exact Or.inr ⟨_, h⟩
  · exact Or.inr ⟨_, h⟩
  · refine Or.inr ⟨uchar :: (hex4 (55296 + (c.toNat - 65536) / 1024) ++
      bslash :: uchar :: hex4 (56320 + (c.toNat - 65536) % 1024)), ?_⟩
    rw [h]
    rfl

/-- One escape never contains the terminator. -/
theorem jsonEscapeChar_clean (c : Char) :
    containsSub termStr (jsonEscapeChar c) = false := by
  have hsp : ∀ (l : List Char), ' ' ∉ l → containsSub termStr l = false := by
    intro l hl
    rw [show termStr = ' ' :: [Char.ofNat 45, Char.ofNat 45, Char.ofNat 62]
      from by decide]
    exact containsSub_of_head_not_mem hl
  have hru : ∀ (n : ℕ), ' ' ∉ bslash :: uchar :: hex4 n := by
    intro n hm
    rcases List.mem_cons.mp hm with hc | hm
    · exact absurd hc (by decide)
    rcases List.mem_cons.mp hm with hc | hm
    · exact absurd hc (by decide)
    rw [hex4] at hm
    simp only [List.mem_cons, List.not_mem_nil, or_false] at hm
    rcases hm with hc | hc | hc | hc <;>
      exact (hexDigitChar_ne _ (Nat.mod_lt _ (by norm_num))).1 hc.symm
  rcases jsonEscapeChar_cases c with h|h|h|h|h|h|h|h|h|h
  · rw [h]; exact containsSub_short (by simp [termStr])
  · rw [h]; decide
  · rw [h]; decide
  · rw [h]; decide
  · rw [h]; decide
  · rw [h]; decide
  · rw [h]; decide
  · rw [h]; decide
  · rw [h]; exact hsp _ (hru c.toNat)
  · rw [h]
    refine hsp _ ?_
    intro hm
    rcases List.mem_append.mp hm with hm | hm
    · exact hru _ hm
    · exact hru _ hm

/-- A pattern of dashes and closing angle brackets that starts the escaped
    string starts the string itself. -/
theorem dash_chain_isPrefixOf : ∀ (p s : List Char),
    (∀ x ∈ p, x = Char.ofNat 45 ∨ x = Char.ofNat 62) →
    p.isPrefixOf (jsonEscape s) = true → p.isPrefixOf s = true
  | [], s, _, _ => List.isPrefixOf_iff_prefix.mpr (List.nil_prefix)
  | x :: p, [], _, hpre => by cases hpre
  | x :: p, c :: cs, hmem, hpre => by
    rcases jsonEscapeChar_head c with hv | ⟨rest, hb⟩
    · rw [jsonEscape_cons, hv, List.singleton_append, isPrefixOf_cons_cons,
        Bool.and_eq_true, beq_iff_eq] at hpre
      rw [isPrefixOf_cons_cons, Bool.and_eq_true, beq_iff_eq]
      exact ⟨hpre.1, dash_chain_isPrefixOf p cs
        (fun y hy => hmem y (List.mem_cons_of_mem _ hy)) hpre.2⟩
    · exfalso
      rw [jsonEscape_cons, hb, List.cons_append, isPrefixOf_cons_cons,
        Bool.and_eq_true, beq_iff_eq] at hpre
      rcases hmem x (List.mem_cons_self _ _) with hx | hx <;>
        rw [hx] at hpre <;> exact absurd hpre.1 (by decide)

/-- Escaping a terminator-free string yields a terminator-free string. -/
theorem jsonEscape_clean : ∀ (s : List Char), containsSub termStr s = false →
    containsSub termStr (jsonEscape s) = false
  | [], _ => rfl
  | c :: cs, h => by
    have hparts : termStr.isPrefixOf (c :: cs) = false ∧
        containsSub termStr cs = false := by
      rw [containsSub_cons, Bool.or_eq_false_iff] at h
      exact h
    rw [jsonEscape_cons]
    cases hcs2 : containsSub termStr (jsonEscapeChar c ++ jsonEscape cs) with
    | false => rfl
    | true =>
      exfalso
      rcases containsSub_split (by decide) hcs2 with hx | hx | ⟨i, hi0, hiL, hsuf, hpre⟩
      · rw [jsonEscapeChar_clean] at hx; cases hx
      · rw [jsonEscape_clean cs hparts.2] at hx; cases hx
      · have hiL4 : i < 4 := by simpa [termStr] using hiL
        rcases jsonEscapeChar_shape c with hv | ⟨hlen, hlast⟩
        · rw [hv] at hsuf
          interval_cases i
          · rw [show termStr.take 1 = [' '] from by decide] at hsuf
            obtain ⟨t, ht⟩ := hsuf
            have hc : c = ' ' := by
              cases t with
              | nil => cases ht; rfl
              | cons u t2 =>
                have := congrArg List.length ht
                simp at this
            have hdp : (termStr.drop 1).isPrefixOf (jsonEscape cs) = true :=
              List.isPrefixOf_iff_prefix.mpr hpre
            have hdp2 := dash_chain_isPrefixOf (termStr.drop 1) cs (by decide) hdp
            have hfull : termStr.isPrefixOf (c :: cs) = true := by
              rw [hc, show termStr = ' ' :: termStr.drop 1 from by decide,
                isPrefixOf_cons_cons, hdp2]
              simp
            rw [hparts.1] at hfull
            cases hfull
          · have := hsuf.length_le
            rw [show (termStr.take 2).length = 2 from by decide] at this
            simp at this
          · have := hsuf.length_le
            rw [show (termStr.take 3).length = 3 from by decide] at this
            simp at this
        · interval_cases i
          · rw [show termStr.take 1 = [' '] from by decide] at hsuf
            obtain ⟨t, ht⟩ := hsuf
            have hgl : (jsonEscapeChar c).getLast? = some ' ' := by
              rw [← ht, List.getLast?_concat]
            exact (hlast _ hgl).1 rfl
          · rw [show termStr.take 2 = [' '] ++ [Char.ofNat 45] from by decide] at hsuf
            obtain ⟨t, ht⟩ := hsuf
            rw [← List.append_assoc] at ht
            have hgl : (jsonEscapeChar c).getLast? = some (Char.ofNat 45) := by
              rw [← ht, List.getLast?_concat]
            exact (hlast _ hgl).2 rfl
          · rw [show termStr.take 3 = [' ', Char.ofNat 45] ++ [Char.ofNat 45]
              from by decide] at hsuf
            obtain ⟨t, ht⟩ := hsuf
            rw [← List.append_assoc] at ht
            have hgl : (jsonEscapeChar c).getLast? = some (Char.ofNat 45) := by
              rw [← ht, List.getLast?_concat]
            exact (hlast _ hgl).2 rfl

/-- Prepending a non-space character preserves terminator-freeness. -/
theorem containsSub_termStr_cons_ne {c : Char} {X : List Char} (hc : c ≠ ' ')
    (hX : containsSub termStr X = false) :
    containsSub termStr (c :: X) = false := by
  rw [containsSub_cons, hX, Bool.or_false,
    show termStr = ' ' :: [Char.ofNat 45, Char.ofNat 45, Char.ofNat 62]
      from by decide, isPrefixOf_cons_cons,
    beq_eq_false_iff_ne.mpr (fun h => hc h.symm), Bool.false_and]

/-- Appending with a known, harmless head character on the right. -/
theorem clean_append_head_at {a b : List Char} (c : Char)
    (ha : containsSub termStr a = false) (hb : containsSub termStr b = false)
    (hc : b.head? = some c) (h45 : c ≠ Char.ofNat 45) (h62 : c ≠ Char.ofNat 62) :
    containsSub termStr (a ++ b) = false := by
  refine clean_append_head ha hb ?_
  intro e he
  rw [hc] at he
  injection he with h
  subst h
  exact ⟨h45, h62⟩

/-- A JSON string literal of terminator-free content is terminator-free. -/
theorem jstr_clean {s : List Char} (hs : containsSub termStr s = false) :
    containsSub termStr (jstr s) = false := by
  rw [jstr, show dquote :: jsonEscape s ++ [dquote] =
    (dquote :: jsonEscape s) ++ [dquote] from rfl]
  refine clean_append_head_at dquote ?_ ?_ rfl (by decide) (by decide)
  · exact containsSub_termStr_cons_ne (by decide) (jsonEscape_clean s hs)
  · exact containsSub_short (by decide)

/-- A JSON string literal starts with a quote. -/
theorem jstr_head (s : List Char) : (jstr s).head? = some dquote := rfl

/-- One printed dictionary is terminator-free when its fields are. -/
theorem dumpsDict_clean (d : NoteDict)
    (h1 : containsSub termStr d.category = false)
    (h2 : containsSub termStr d.content = false)
    (h3 : containsSub termStr d.timestamp = false) :
    containsSub termStr (dumpsDict d) = false := by
  have sepc : containsSub termStr (": ".data) = false := by decide
  have sepc2 : containsSub termStr (", ".data) = false := by decide
  rw [dumpsDict]
  simp only [List.cons_append, List.append_assoc]
  refine containsSub_termStr_cons_ne (by decide) ?_
  refine clean_append_head_at (Char.ofNat 58) (jstr_clean (by decide)) ?_ rfl
    (by decide) (by decide)
  refine clean_append_head_at dquote sepc ?_ rfl (by decide) (by decide)
  refine clean_append_head_at (Char.ofNat 44) (jstr_clean h1) ?_ rfl
    (by decide) (by decide)
  refine clean_append_head_at dquote sepc2 ?_ rfl (by decide) (by decide)
  refine clean_append_head_at (Char.ofNat 58) (jstr_clean (by decide)) ?_ rfl
    (by decide) (by decide)
  refine clean_append_head_at dquote sepc ?_ rfl (by decide) (by decide)
  refine clean_append_head_at (Char.ofNat 44) (jstr_clean h2) ?_ rfl
    (by decide) (by decide)
  refine clean_append_head_at dquote sepc2 ?_ rfl (by decide) (by decide)
  refine clean_append_head_at (Char.ofNat 58) (jstr_clean (by decide)) ?_ rfl
    (by decide) (by decide)
  refine clean_append_head_at dquote sepc ?_ rfl (by decide) (by decide)
  refine clean_append_head_at rcurly (jstr_clean h3)
    (containsSub_short (by decide)) rfl (by decide) (by decide)

/-- The joined dictionaries are terminator-free when every field is. -/
theorem dumpsInner_clean : ∀ (ds : List NoteDict),
    (∀ d ∈ ds, containsSub termStr d.category = false ∧
      containsSub termStr d.content = false ∧
      containsSub termStr d.timestamp = false) →
    containsSub termStr (dumpsInner ds) = false
  | [], _ => rfl
  | [d], h => by
    rw [show dumpsInner [d] = dumpsDict d from rfl]
    obtain ⟨h1, h2, h3⟩ := h d (List.mem_singleton_self d)
    exact dumpsDict_clean d h1 h2 h3
  | d :: d2 :: ds, h => by
    rw [show dumpsInner (d :: d2 :: ds) =
      dumpsDict d ++ ", ".data ++ dumpsInner (d2 :: ds) from rfl,
      List.append_assoc]
    obtain ⟨h1, h2, h3⟩ := h d (List.mem_cons_self _ _)
    have hrest := dumpsInner_clean (d2 :: ds)
      (fun e he => h e (List.mem_cons_of_mem _ he))
    obtain ⟨rest, hr⟩ := dumpsInner_cons_head d2 ds
    refine clean_append_head_at (Char.ofNat 44) (dumpsDict_clean d h1 h2 h3) ?_
      rfl (by decide) (by decide)
    exact clean_append_head_at lcurly (containsSub_short (by decide)) hrest
      (by rw [hr]; rfl) (by decide) (by decide)

/-- The whole printed payload is terminator-free when every field is. -/
theorem dumps_clean (ds : List NoteDict)
    (h : ∀ d ∈ ds, containsSub termStr d.category = false ∧
      containsSub termStr d.content = false ∧
      containsSub termStr d.timestamp = false) :
    containsSub termStr (dumps ds) = false := by
  rw [dumps, List.cons_append]
  refine containsSub_termStr_cons_ne (by decide) ?_
  exact clean_append_head_at (Char.ofNat 93) (dumpsInner_clean ds h)
    (containsSub_short (by decide)) rfl (by decide) (by decide)

/-- Two appends with distinct known heads differ. -/
theorem append_head_ne (x y : Char) {u v t s : List Char} (hu : u.head? = some x)
    (hv : v.head? = some y) (hxy : x ≠ y) : u ++ t ≠ v ++ s := by
  cases u with
  | nil => cases hu
  | cons a u2 =>
    cases v with
    | nil => cases hv
    | cons b v2 =>
      rw [List.head?_cons] at hu hv
      injection hu with hu2
      injection hv with hv2
      subst hu2
      subst hv2
      intro h
      rw [List.cons_append, List.cons_append] at h
      injection h with h1 h2
      exact hxy h1

/-- Unfolding `takeUntil` one step. -/
theorem takeUntil_cons (pat : List Char) (c : Char) (r : List Char) :
    takeUntil pat (c :: r) =
      if pat.isPrefixOf (c :: r) then some []
      else (takeUntil pat r).map (c :: ·) := rfl

/-- `takeUntil` finds the terminator exactly at the end of a terminator-free
    block. -/
theorem takeUntil_at : ∀ (D R : List Char), containsSub termStr D = false →
    takeUntil termStr (D ++ (termStr ++ R)) = some D
  | [], R, _ => by
    rw [List.nil_append]
    have hshape : termStr ++ R =
        ' ' :: ([Char.ofNat 45, Char.ofNat 45, Char.ofNat 62] ++ R) := by
      rw [show termStr = ' ' :: [Char.ofNat 45, Char.ofNat 45, Char.ofNat 62]
        from by decide]
      rfl
    have hc : termStr.isPrefixOf
        (' ' :: ([Char.ofNat 45, Char.ofNat 45, Char.ofNat 62] ++ R)) = true := by
      rw [← hshape]
      exact List.isPrefixOf_iff_prefix.mpr (List.prefix_append _ _)
    rw [hshape, takeUntil_cons, if_pos hc]
  | c :: D, R, h => by
    have hparts : termStr.isPrefixOf (c :: D) = false ∧
        containsSub termStr D = false := by
      rw [containsSub_cons, Bool.or_eq_false_iff] at h
      exact h
    have hnp : termStr.isPrefixOf ((c :: D) ++ (termStr ++ R)) = false := by
      cases hb : termStr.isPrefixOf ((c :: D) ++ (termStr ++ R)) with
      | false => rfl
      | true =>
        exfalso
        rw [List.isPrefixOf_iff_prefix] at hb
        by_cases hl : termStr.length ≤ (c :: D).length
        · have hin : termStr <+: c :: D :=
            List.prefix_of_prefix_length_le hb (List.prefix_append _ _) hl
          have h2 := containsSub_of_isPrefixOf (by decide) hin
          exact absurd (h.symm.trans h2) (by decide)
        · push_neg at hl
          have hdrop := hb.drop (c :: D).length
          rw [List.drop_left] at hdrop
          have hk4 : (c :: D).length < 4 := by
            have h4 : termStr.length = 4 := by decide
            omega
          have hk1 : 1 ≤ (c :: D).length := by simp
          obtain ⟨t, ht⟩ := hdrop
          generalize hkk : (c :: D).length = k at ht hk4 hk1
          interval_cases k
          · exact append_head_ne (Char.ofNat 45) ' ' (by decide) (by decide)
              (by decide) ht
          · exact append_head_ne (Char.ofNat 45) ' ' (by decide) (by decide)
              (by decide) ht
          · exact append_head_ne (Char.ofNat 62) ' ' (by decide) (by decide)
              (by decide) ht
    rw [List.cons_append, takeUntil_cons,
      if_neg (by
        intro hcon
        rw [← List.cons_append, hnp] at hcon
        exact absurd hcon (by decide)),
      takeUntil_at D R hparts.2]
    rfl

/-- Unfolding `extractPayload` one step. -/
theorem extractPayload_cons (c : Char) (r : List Char) :
    extractPayload (c :: r) =
      if markerSp.isPrefixOf (c :: r) then
        takeUntil termStr (List.drop 17 (c :: r))
      else extractPayload r := rfl

/-- The header of the saved file contains no marker start, so the scan skips
    it. -/
theorem extractPayload_skip_header (M : List Char) :
    extractPayload (['#', ' ', 'N', 'o', 't', 'e', 's', '\n', '\n'] ++ M) =
      extractPayload M := rfl

/-- At the marker, the payload group is everything up to the first
    terminator. -/
theorem extractPayload_at_marker (Y : List Char) :
    extractPayload (markerSp ++ Y) = takeUntil termStr Y := by
  have hms : markerSp = Char.ofNat 60 :: ("!-- NOTES_JSON: ".data) := by decide
  have hcond2 : markerSp.isPrefixOf
      (Char.ofNat 60 :: ("!-- NOTES_JSON: ".data ++ Y)) = true := by
    rw [← List.cons_append, ← hms]
    exact List.isPrefixOf_iff_prefix.mpr (List.prefix_append _ _)
  rw [hms, List.cons_append, extractPayload_cons, if_pos hcond2]
  rfl

/-- The saved file, right-associated around the marker. -/
theorem save_notes_shape (notes : List Note) :
    save_notes notes = ['#', ' ', 'N', 'o', 't', 'e', 's', '\n', '\n'] ++
      (markerSp ++ (dumps (notes.map to_dict) ++ (termStr ++
        ("\n\n".data ++ (notes.map to_markdown).flatten)))) := by
  rw [save_notes, show ("# Notes\n\n".data : List Char) =
    ['#', ' ', 'N', 'o', 't', 'e', 's', '\n', '\n'] from by decide]
  simp [List.append_assoc]

/-- The saved file passes the marker containment check. -/
theorem save_contains_marker (notes : List Note) :
    containsSub markerChk (save_notes notes) = true := by
  have heq : save_notes notes =
      (['#', ' ', 'N', 'o', 't', 'e', 's', '\n', '\n'] ++ markerChk) ++
        ([' '] ++ (dumps (notes.map to_dict) ++ (termStr ++
          ("\n\n".data ++ (notes.map to_markdown).flatten)))) := by
    rw [save_notes, show markerSp = markerChk ++ [' '] from by decide,
      show ("# Notes\n\n".data : List Char) =
        ['#', ' ', 'N', 'o', 't', 'e', 's', '\n', '\n'] from by decide]
    simp [List.append_assoc]
  rw [heq]
  exact containsSub_of_decomp markerChk (by decide) _ _

/-- The saved file passes the terminator containment check. -/
theorem save_contains_term (notes : List Note) :
    containsSub termStr (save_notes notes) = true := by
  have heq : save_notes notes =
      (("# Notes\n\n".data ++ markerSp ++ dumps (notes.map to_dict)) ++
        termStr) ++
        ("\n\n".data ++ (notes.map to_markdown).flatten) := by
    rw [save_notes]
    simp [List.append_assoc]
  rw [heq]
  exact containsSub_of_decomp termStr (by decide) _ _

/-- C7 (amended): for every list of notes none of whose fields contains the
    regex terminator `" -->"`, saving with `save_notes` and then loading the
    written content with `load_notes` reproduces the identical list of
    (category, content, timestamp) triples in order, via the embedded JSON
    payload that save always emits.  The terminator-freeness hypothesis is
    forced: a content containing `" -->"` truncates the non-greedy payload
    group and the round trip fails (see the counterexample). -/
theorem claim_C7_roundtrip_via_payload (notes : List Note) (now : List Char)
    (hclean : ∀ n ∈ notes, containsSub termStr n.category = false ∧
      containsSub termStr n.content = false ∧
      containsSub termStr n.timestamp = false) :
    load_notes now (save_notes notes) = notes := by
  have hXclean : containsSub termStr (dumps (notes.map to_dict)) = false := by
    refine dumps_clean _ ?_
    intro d hd
    rw [List.mem_map] at hd
    obtain ⟨n, hn, rfl⟩ := hd
    exact hclean n hn
  have hE : extractPayload (save_notes notes) =
      some (dumps (notes.map to_dict)) := by
    rw [save_notes_shape, extractPayload_skip_header, extractPayload_at_marker,
      takeUntil_at _ _ hXclean]
  rw [load_notes,
    if_pos ⟨save_contains_marker notes, save_contains_term notes⟩, hE]
  show (match parseNotesFull (dumps (notes.map to_dict)) with
    | some ds => ds.map from_dict
    | none => ([] : List Note)) = notes
  rw [parseNotesFull_dumps]
  show (notes.map to_dict).map from_dict = notes
  rw [List.map_map,
    show from_dict ∘ to_dict = id from by funext n; cases n; rfl, List.map_id]

/-- C7 counterexample to the unconditional claim: a note whose content
    contains `" -->"` does not survive the round trip (the payload group is
    truncated at the first terminator, the JSON parse fails, and load returns
    the empty list). -/
theorem claim_C7_counterexample :
    load_notes ("T".data)
        (save_notes [⟨"Observation".data, "x -->".data, "T0".data⟩]) ≠
      [⟨"Observation".data, "x -->".data, "T0".data⟩] := by decide

/-- C7 witness: three notes with distinct categories round-trip exactly. -/
theorem claim_C7_witness :
    (∀ n ∈ [(⟨"Observation".data, "Alice prefers tea".data,
          "2024-01-01 10:00".data⟩ : Note),
        ⟨"Preference".data, "Bob likes coffee".data, "2024-01-02 11:00".data⟩,
        ⟨"Schedule".data, "Standup at nine".data, "2024-01-03 12:00".data⟩],
      containsSub termStr n.category = false ∧
      containsSub termStr n.content = false ∧
      containsSub termStr n.timestamp = false) ∧
    load_notes ("2024-01-04 09:00".data)
        (save_notes [⟨"Observation".data, "Alice prefers tea".data,
            "2024-01-01 10:00".data⟩,
          ⟨"Preference".data, "Bob likes coffee".data, "2024-01-02 11:00".data⟩,
          ⟨"Schedule".data, "Standup at nine".data, "2024-01-03 12:00".data⟩]) =
      [⟨"Observation".data, "Alice prefers tea".data, "2024-01-01 10:00".data⟩,
        ⟨"Preference".data, "Bob likes coffee".data, "2024-01-02 11:00".data⟩,
        ⟨"Schedule".data, "Standup at nine".data, "2024-01-03 12:00".data⟩] :=
  ⟨by decide, claim_C7_roundtrip_via_payload _ _ (by decide)⟩

end Morpheus
